import Mathlib

/-!
Verification development for the SPlab1 custom heap allocator (src/main.cpp).

The C++ program keeps a singly linked list of OS-provided arenas, embeds a
`BlockHeader` at the start of every block, and mirrors every block start in
`std::unordered_map<void*, BlockHeader*> block_map`.  We model addresses and
sizes as natural numbers with explicit `% 2 ^ 64` wherever the C++ `size_t`
arithmetic can wrap, the header store and the index as a single association
list keyed by block start address (the program keeps them in lockstep: every
header write is paired with the matching map operation), and the OS memory
provider (`VirtualAlloc`) as an `Option Nat` parameter giving the base address
of the newly granted region, or `none` on refusal.

The coalescing pass iterates an `unordered_map` in unspecified order, so
`block_unite` takes the traversal order as an explicit list of keys;
`block_unite_can` instantiates it with the map's own key list.
-/

namespace SPlab

/-- Width of `size_t` address arithmetic: `2 ^ 64`. -/
def Wd : Nat := 2 ^ 64

/-- `sizeof(BlockHeader)` on x64: 8-byte `size_t` plus three `bool`s, padded. -/
def Hs : Nat := 16

/-- Wrapping subtraction `a - b` in `size_t` arithmetic (source: raw pointer
and `size_t` subtraction). -/
def subw (a b : Nat) : Nat := (Wd + a - b) % Wd

/-- `struct BlockHeader` from src/main.cpp lines 9-14. -/
structure BlockHeader where
  size : Nat
  is_free : Bool
  is_first : Bool
  is_last : Bool
deriving DecidableEq, Repr

/-- `struct Arena` from src/main.cpp lines 17-21; the `next` pointer becomes
the list structure of `AllocState.arena_list`. -/
structure Arena where
  size : Nat
  base : Nat
deriving DecidableEq, Repr

/-- The model of `std::unordered_map<void*, BlockHeader*> block_map`, which
also stores the headers themselves (in the program the map values point into
arena memory; map and memory are always mutated together). -/
abbrev BlockMap := List (Nat × BlockHeader)

/-- Lookup a block header by block start address (`block_map.find`). -/
def bmLookup : BlockMap → Nat → Option BlockHeader
  | [], _ => none
  | e :: m, k => if e.1 = k then some e.2 else bmLookup m k

/-- The key list of the map. -/
def bmKeys (m : BlockMap) : List Nat := m.map (fun e => e.1)

/-- `block_map.erase(k)`. -/
def bmErase : BlockMap → Nat → BlockMap
  | [], _ => []
  | e :: m, k => if e.1 = k then bmErase m k else e :: bmErase m k

/-- In-place mutation of the header stored at address `k` (writing through a
`BlockHeader*` in the program). -/
def bmModify : BlockMap → Nat → (BlockHeader → BlockHeader) → BlockMap
  | [], _, _ => []
  | e :: m, k, f => (if e.1 = k then (e.1, f e.2) else e) :: bmModify m k f

/-- `block_map[k] = header`: insert-or-assign semantics. -/
def bmInsert (m : BlockMap) (k : Nat) (h : BlockHeader) : BlockMap :=
  (k, h) :: bmErase m k

/-- The global allocator state: `default_arena_size`, `arena_list` (most
recently created arena first, following the `next` links), `block_map`. -/
structure AllocState where
  default_arena_size : Nat
  arena_list : List Arena
  block_map : BlockMap
deriving DecidableEq, Repr

/-- `align` from src/main.cpp lines 29-31: `(size + 3) & ~3` in `size_t`
arithmetic; the mask clears the two low bits, i.e. rounds down to a multiple
of four after the wrapping addition. -/
def align (size : Nat) : Nat := (size + 3) % Wd / 4 * 4

/-- `arena_create` from src/main.cpp lines 34-55.  `osBase` is the result of
the `VirtualAlloc` call: `none` models provider failure. -/
def arena_create (st : AllocState) (minSize : Nat) (osBase : Option Nat) :
    Option (Arena × AllocState) :=
  let sz := align (max minSize st.default_arena_size)
  match osBase with
  | none => none
  | some base =>
    let arena : Arena := ⟨sz, base⟩
    let blk : BlockHeader := ⟨subw sz Hs, true, true, true⟩
    some (arena,
      ⟨st.default_arena_size, arena :: st.arena_list, bmInsert st.block_map base blk⟩)

/-- `block_split` from src/main.cpp lines 58-73, acting on the block whose
header is at address `k`. -/
def block_split (m : BlockMap) (k : Nat) (size0 : Nat) : BlockMap :=
  let size := align size0
  match bmLookup m k with
  | none => m
  | some b =>
    if (size + Hs + 4) % Wd ≤ b.size then
      let nk := (k + Hs + size) % Wd
      let nb : BlockHeader := ⟨subw (subw b.size size) Hs, true, false, b.is_last⟩
      bmModify (bmInsert m nk nb) k (fun h => ⟨size, h.is_free, h.is_first, false⟩)
    else m

/-- The scan loop of `block_alloc` (src/main.cpp lines 99-108), walking the
blocks of one arena from `addr` while `addr < stop`.  The C++ loop advances by
`sizeof(BlockHeader) + block->size` each step; `fuel` bounds the number of
steps (the loop itself has no bound; well-formed arenas need at most
`arena.size + 1` steps). -/
def blockAllocGo (m : BlockMap) (size : Nat) : Nat → Nat → Nat → Option (Nat × BlockMap)
  | 0, _, _ => none
  | fuel + 1, addr, stop =>
    if addr < stop then
      match bmLookup m addr with
      | none => none
      | some b =>
        if b.is_free ∧ size ≤ b.size then
          some ((addr + Hs) % Wd,
            bmModify (block_split m addr size) addr
              (fun h => ⟨h.size, false, h.is_first, h.is_last⟩))
        else blockAllocGo m size fuel ((addr + Hs + b.size) % Wd) stop
    else none

/-- `block_alloc` from src/main.cpp lines 96-110: on a hit it splits, marks
the block busy and returns the address just past the header together with the
updated map; `none` on a miss (the map is untouched on that path). -/
def block_alloc (m : BlockMap) (a : Arena) (size0 : Nat) : Option (Nat × BlockMap) :=
  let size := align size0
  blockAllocGo m size (a.size + 1) a.base ((a.base + a.size) % Wd)

/-- The arena loop of `mem_alloc` (src/main.cpp lines 120-124). -/
def tryArenas (m : BlockMap) (size : Nat) : List Arena → Option (Nat × BlockMap)
  | [] => none
  | a :: rest =>
    match block_alloc m a size with
    | some r => some r
    | none => tryArenas m size rest

/-- `mem_alloc` from src/main.cpp lines 113-132. -/
def mem_alloc (st : AllocState) (size : Nat) (osBase : Option Nat) :
    Option Nat × AllocState :=
  if size = 0 then (none, st)
  else
    let sz := align size
    match tryArenas st.block_map sz st.arena_list with
    | some (p, m) => (some p, ⟨st.default_arena_size, st.arena_list, m⟩)
    | none =>
      match arena_create st ((sz + Hs) % Wd) osBase with
      | none => (none, st)
      | some (a, st1) =>
        match block_alloc st1.block_map a sz with
        | some (p, m) => (some p, ⟨st1.default_arena_size, st1.arena_list, m⟩)
        | none => (none, st1)

/-- The successor address of the block at `k` with header `b`:
`k + sizeof(BlockHeader) + b.size` in wrapping arithmetic. -/
def succOf (k : Nat) (b : BlockHeader) : Nat := (k + Hs + b.size) % Wd

/-- The inner merge loop of `block_unite` at one map position (the `continue`
branch of src/main.cpp lines 79-89 re-tests the grown block).  Each merge
erases one map entry, so `m.length + 1` fuel always suffices. -/
def uniteInner : Nat → BlockMap → Nat → BlockMap
  | 0, m, _ => m
  | fuel + 1, m, k =>
    match bmLookup m k with
    | none => m
    | some b =>
      if b.is_free then
        match bmLookup m (succOf k b) with
        | some nb =>
          if nb.is_free then
            uniteInner fuel
              (bmErase
                (bmModify m k
                  (fun h => ⟨(h.size + Hs + nb.size) % Wd, h.is_free, h.is_first, nb.is_last⟩))
                (succOf k b))
              k
          else m
        | none => m
      else m

/-- `block_unite` from src/main.cpp lines 76-93.  The `unordered_map`
iteration order is unspecified, so the visit order is an explicit parameter:
keys already erased when their turn comes are skipped (the C++ iterator never
reaches erased elements). -/
def block_unite (m : BlockMap) (order : List Nat) : BlockMap :=
  order.foldl (fun acc k => uniteInner (acc.length + 1) acc k) m

/-- `block_unite` with the map's own key list as traversal order. -/
def block_unite_can (m : BlockMap) : BlockMap := block_unite m (bmKeys m)

/-- `mem_free` from src/main.cpp lines 135-148, with an explicit coalescing
traversal order. -/
def mem_free_ord (st : AllocState) (ptr : Option Nat) (order : List Nat) : AllocState :=
  match ptr with
  | none => st
  | some p =>
    let k := subw p Hs
    match bmLookup st.block_map k with
    | none => st
    | some _ =>
      let m1 := bmModify st.block_map k (fun h => ⟨h.size, true, h.is_first, h.is_last⟩)
      ⟨st.default_arena_size, st.arena_list, block_unite m1 order⟩

/-- `mem_free` with the canonical traversal order. -/
def mem_free (st : AllocState) (ptr : Option Nat) : AllocState :=
  mem_free_ord st ptr (bmKeys st.block_map)

/-- `mem_realloc` from src/main.cpp lines 151-177.  The `memcpy` moves payload
bytes, which the model does not track; every header / map effect is kept. -/
def mem_realloc (st : AllocState) (ptr : Option Nat) (size0 : Nat)
    (osBase : Option Nat) : Option Nat × AllocState :=
  match ptr with
  | none => mem_alloc st size0 osBase
  | some p =>
    let size := align size0
    let k := subw p Hs
    match bmLookup st.block_map k with
    | none => (none, st)
    | some b =>
      if size ≤ b.size then
        (some p, ⟨st.default_arena_size, st.arena_list, block_split st.block_map k size⟩)
      else
        match mem_alloc st size osBase with
        | (none, st1) => (none, st1)
        | (some np, st1) => (some np, mem_free st1 (some p))

/-! ### Derived predicates used by the specification's invariants -/

/-- Is the block at `k` tracked and currently free? -/
def freeAt (m : BlockMap) (k : Nat) : Bool :=
  match bmLookup m k with
  | some b => b.is_free
  | none => false

/-- The merge condition of `block_unite` at `k`: the block is tracked and
free, and the tracked block at its successor address is also free. -/
def mergeable (m : BlockMap) (k : Nat) : Bool :=
  match bmLookup m k with
  | some b => b.is_free && freeAt m (succOf k b)
  | none => false

/-- No two address-adjacent tracked blocks are both free (invariant 4 of the
specification, stated globally over the whole Block Table). -/
def noAdjFree (m : BlockMap) : Prop := ∀ k, mergeable m k = false

/-- The block walk of `mem_show` / `block_alloc`: collect `(address, header)`
pairs from `addr` while `addr < stop`, stepping by `Hs + size`.  `none` when a
walked address is untracked or the fuel runs out. -/
def walkList (m : BlockMap) : Nat → Nat → Nat → Option (List (Nat × BlockHeader))
  | 0, addr, stop => if addr < stop then none else some []
  | fuel + 1, addr, stop =>
    if addr < stop then
      match bmLookup m addr with
      | none => none
      | some b => (walkList m fuel ((addr + Hs + b.size) % Wd) stop).map
          (fun l => (addr, b) :: l)
    else some []

/-- Total bytes described by a walked block list: `header + payload` each. -/
def blockBytes (l : List (Nat × BlockHeader)) : Nat :=
  (l.map (fun x => Hs + x.2.size)).sum

/-- The walk of one arena from its base to its end address. -/
def arenaWalk (m : BlockMap) (a : Arena) : Option (List (Nat × BlockHeader)) :=
  walkList m (a.size + 1) a.base ((a.base + a.size) % Wd)

/-- Invariant 1 of the specification for one arena: the walk from the base
succeeds and accounts for exactly the arena's size (each step staying inside
address-arithmetic range). -/
def arenaOk (m : BlockMap) (a : Arena) : Bool :=
  match arenaWalk m a with
  | none => false
  | some l => blockBytes l == a.size && l.all (fun x => decide (x.1 + Hs + x.2.size < Wd))

/-- The claim's sum property for one arena, as a proposition. -/
def arenaSumOk (m : BlockMap) (a : Arena) : Prop :=
  ∃ l, arenaWalk m a = some l ∧ blockBytes l = a.size

/-- The arena's address range stays clear of the top of the address space. -/
def arenaBounds (a : Arena) : Bool := decide (a.base + a.size + 32 ≤ Wd)

/-- Two arenas occupy strictly separated address ranges: neither is adjacent
to or overlapping the other (the end address of one is never the base of the
other). -/
def sepArena (a b : Arena) : Bool :=
  decide (a.base + a.size < b.base) || decide (b.base + b.size < a.base)

/-- All listed arenas are pairwise strictly separated. -/
def pairwiseSep : List Arena → Bool
  | [] => true
  | a :: rest => rest.all (fun b => sepArena a b) && pairwiseSep rest

/-- Is `k` one of the walked block starts of arena `a`? -/
def inWalk (m : BlockMap) (a : Arena) (k : Nat) : Bool :=
  match arenaWalk m a with
  | none => false
  | some l => l.any (fun x => x.1 == k)

/-- Every tracked key is a walked block start of some arena (the Block Table
index exactly mirrors the block starts reachable from arena bases). -/
def coveredKeys (m : BlockMap) (arenas : List Arena) : Bool :=
  m.all (fun e => arenas.any (fun a => inWalk m a e.1))

/-- Well-formedness of an allocator state: every arena is in range with a
complete walk summing to its size, arenas are pairwise strictly separated,
the Block Table keys are exactly the walked block starts, and keys are
unrepeated. -/
def wf (st : AllocState) : Bool :=
  st.arena_list.all (fun a => arenaBounds a && arenaOk st.block_map a)
  && pairwiseSep st.arena_list
  && coveredKeys st.block_map st.arena_list
  && decide (bmKeys st.block_map).Nodup

/-- The size `arena_create` will compute for a new arena serving an aligned
request of `size` bytes (`mem_alloc` asks for `align size + Hs`). -/
def newArenaSize (st : AllocState) (size : Nat) : Nat :=
  align (max ((align size + Hs) % Wd) st.default_arena_size)

/-- A candidate OS-provided region of size `asize` at `base` is acceptable:
large enough for a header, in range, and strictly separated from every
existing arena. -/
def arenaFits (st : AllocState) (base asize : Nat) : Bool :=
  decide (16 ≤ asize) && decide (base + asize + 32 ≤ Wd)
  && st.arena_list.all (fun a => sepArena ⟨asize, base⟩ a)

/-- Constraint on the OS memory provider's answer for an allocation of
`size`: if it grants a region, that region is acceptable. -/
def osOk (st : AllocState) (size : Nat) (osBase : Option Nat) : Bool :=
  match osBase with
  | none => true
  | some base => arenaFits st base (newArenaSize st size)

/-! ### Specification-side first-fit scan (for the refinement claim)

Modelled from the spec's words (§4.4): "Scan arenas most-recently-created
first; within each arena, linear-scan blocks from its base in address order;
first-fit: return the first free block whose `size >= requested size`"; the
returned pointer is "the address immediately past its header". -/

/-- First fitting block of one arena's walked block list, per the spec. -/
def specScanBlocks (blocks : List (Nat × BlockHeader)) (size : Nat) : Option Nat :=
  (blocks.find? (fun x => x.2.is_free && decide (size ≤ x.2.size))).map
    (fun x => x.1 + Hs)

/-- Spec-side scan over the arena list in order (most recently created
first), each arena walked from its base in address order. -/
def specScanArenas (m : BlockMap) (size : Nat) : List Arena → Option Nat
  | [] => none
  | a :: rest =>
    match arenaWalk m a with
    | none => none
    | some l =>
      match specScanBlocks l size with
      | some p => some p
      | none => specScanArenas m size rest

/-- The spec's first-fit search over a whole allocator state. -/
def specScan (st : AllocState) (size : Nat) : Option Nat :=
  specScanArenas st.block_map size st.arena_list

/-- The empty initial state with the `default_arena_size` configured in
`main` (4096). -/
def stInit : AllocState := ⟨4096, [], []⟩

/-- The merged map produced by one merge step of `uniteInner` at `k`
absorbing the free successor `nb`. -/
def mergeStep (m : BlockMap) (k : Nat) (b nb : BlockHeader) : BlockMap :=
  bmErase
    (bmModify m k
      (fun h => ⟨(h.size + Hs + nb.size) % Wd, h.is_free, h.is_first, nb.is_last⟩))
    (succOf k b)

/-- The state after the spec scenario for first-fit reuse: three 200-byte
allocations from one arena (provider base 4096), then the middle one freed. -/
def c5state : AllocState :=
  mem_free
    (mem_alloc (mem_alloc (mem_alloc stInit 200 (some 4096)).2 200 none).2 200 none).2
    (some 4328)

/-- The state after `configure(4096); allocate(2000)` (provider base 4096). -/
def c6state : AllocState := (mem_alloc stInit 2000 (some 4096)).2

/-- A reachable state with two address-adjacent arenas `[4096, 8192)` and
`[8192, 12288)`, each holding one busy block: the provider returned a second
region starting exactly at the end address of the first. -/
def cxAdj : AllocState := (mem_alloc (mem_alloc stInit 4080 (some 4096)).2 4080 (some 8192)).2

/-- `cxAdj` after freeing both blocks (second-arena pointer 8208 first, then
first-arena pointer 4112): the final coalescing pass merges across the arena
boundary. -/
def cxMerged : AllocState := mem_free (mem_free cxAdj (some 8208)) (some 4112)

/-! ### Walk relations (proof infrastructure) -/

/-- Relational form of a complete walk: `WalkR m stop addr l` holds when the
walk from `addr` with bound `stop` traverses exactly the blocks `l` and
terminates. -/
inductive WalkR (m : BlockMap) (stop : Nat) : Nat → List (Nat × BlockHeader) → Prop
  | nil (addr : Nat) (h : ¬ addr < stop) : WalkR m stop addr []
  | cons (addr : Nat) (b : BlockHeader) (l : List (Nat × BlockHeader))
      (h1 : addr < stop) (h2 : bmLookup m addr = some b)
      (h3 : WalkR m stop ((addr + Hs + b.size) % Wd) l) :
      WalkR m stop addr ((addr, b) :: l)

/-- A walk segment from `addr` ending at intermediate position `p` (every
traversed address still below `stop`). -/
inductive Seg (m : BlockMap) (stop : Nat) : Nat → Nat → List (Nat × BlockHeader) → Prop
  | nil (addr : Nat) : Seg m stop addr addr []
  | cons (addr p : Nat) (b : BlockHeader) (l : List (Nat × BlockHeader))
      (h1 : addr < stop) (h2 : bmLookup m addr = some b)
      (h3 : Seg m stop ((addr + Hs + b.size) % Wd) p l) :
      Seg m stop addr p ((addr, b) :: l)

/-! ## Lemmas about the map operations -/

theorem Wd_eq : Wd = 18446744073709551616 := by norm_num [Wd]

theorem Hs_eq : Hs = 16 := rfl

theorem Wd_pos : 0 < Wd := by rw [Wd_eq]; omega

theorem mod_Wd_small {a : Nat} (h : a < Wd) : a % Wd = a := Nat.mod_eq_of_lt h

theorem subw_small {a b : Nat} (h1 : b ≤ a) (h2 : a < Wd) : subw a b = a - b := by
  simp only [subw]; rw [Wd_eq] at *; omega

theorem bmLookup_erase_self (m : BlockMap) (k : Nat) :
    bmLookup (bmErase m k) k = none := by
  induction m with
  | nil => rfl
  | cons e m ih =>
    by_cases h : e.1 = k
    · simpa [bmErase, h] using ih
    · simpa [bmErase, bmLookup, h] using ih

theorem bmLookup_erase_ne (m : BlockMap) {j k : Nat} (h : j ≠ k) :
    bmLookup (bmErase m k) j = bmLookup m j := by
  induction m with
  | nil => rfl
  | cons e m ih =>
    by_cases hek : e.1 = k
    · simp [bmErase, bmLookup, hek, Ne.symm h, ih]
    · simp only [bmErase, if_neg hek, bmLookup]
      by_cases hej : e.1 = j <;> simp [hej, ih]

theorem bmLookup_modify_self (m : BlockMap) (k : Nat) (f : BlockHeader → BlockHeader) :
    bmLookup (bmModify m k f) k = (bmLookup m k).map f := by
  induction m with
  | nil => rfl
  | cons e m ih =>
    by_cases h : e.1 = k
    · simp [bmModify, bmLookup, h]
    · simp [bmModify, bmLookup, h, ih]

theorem bmLookup_modify_ne (m : BlockMap) {j k : Nat} (f : BlockHeader → BlockHeader)
    (h : j ≠ k) : bmLookup (bmModify m k f) j = bmLookup m j := by
  induction m with
  | nil => rfl
  | cons e m ih =>
    by_cases hek : e.1 = k
    · simp [bmModify, bmLookup, hek, Ne.symm h, ih]
    · simp only [bmModify, if_neg hek, bmLookup]
      by_cases hej : e.1 = j <;> simp [hej, ih]

theorem bmLookup_insert_self (m : BlockMap) (k : Nat) (h : BlockHeader) :
    bmLookup (bmInsert m k h) k = some h := by
  simp [bmInsert, bmLookup]

theorem bmLookup_insert_ne (m : BlockMap) {j k : Nat} (hb : BlockHeader) (h : j ≠ k) :
    bmLookup (bmInsert m k hb) j = bmLookup m j := by
  have : k ≠ j := fun hh => h hh.symm
  simp [bmInsert, bmLookup, this, bmLookup_erase_ne m h]

theorem bmKeys_modify (m : BlockMap) (k : Nat) (f : BlockHeader → BlockHeader) :
    bmKeys (bmModify m k f) = bmKeys m := by
  induction m with
  | nil => rfl
  | cons e m ih =>
    by_cases h : e.1 = k <;> simp [bmModify, bmKeys, h] <;>
      simpa [bmKeys] using ih

theorem bmLookup_none_iff (m : BlockMap) (k : Nat) :
    bmLookup m k = none ↔ k ∉ bmKeys m := by
  induction m with
  | nil => simp [bmLookup, bmKeys]
  | cons e m ih =>
    by_cases h : e.1 = k
    · simp [bmLookup, bmKeys, h]
    · simp only [bmLookup, if_neg h, bmKeys, List.map_cons, List.mem_cons]
      rw [ih]
      constructor
      · rintro hk (rfl | hm)
        · exact h rfl
        · exact hk hm
      · intro hk hm
        exact hk (Or.inr hm)

theorem bmLookup_isSome_of_mem {m : BlockMap} {k : Nat} (h : k ∈ bmKeys m) :
    ∃ b, bmLookup m k = some b := by
  cases hl : bmLookup m k with
  | none => exact absurd ((bmLookup_none_iff m k).1 hl) (by simp [h])
  | some b => exact ⟨b, rfl⟩

theorem mem_keys_of_lookup {m : BlockMap} {k : Nat} {b : BlockHeader}
    (h : bmLookup m k = some b) : k ∈ bmKeys m := by
  by_contra hk
  rw [← bmLookup_none_iff] at hk
  rw [h] at hk
  exact Option.noConfusion hk

theorem mem_keys_erase {m : BlockMap} {j k : Nat} :
    j ∈ bmKeys (bmErase m k) ↔ j ∈ bmKeys m ∧ j ≠ k := by
  constructor
  · intro hj
    by_cases hjk : j = k
    · subst hjk
      obtain ⟨b, hb⟩ := bmLookup_isSome_of_mem hj
      rw [bmLookup_erase_self] at hb
      exact Option.noConfusion hb
    · obtain ⟨b, hb⟩ := bmLookup_isSome_of_mem hj
      rw [bmLookup_erase_ne m hjk] at hb
      exact ⟨mem_keys_of_lookup hb, hjk⟩
  · rintro ⟨hj, hjk⟩
    obtain ⟨b, hb⟩ := bmLookup_isSome_of_mem hj
    have : bmLookup (bmErase m k) j = some b := by
      rw [bmLookup_erase_ne m hjk]; exact hb
    exact mem_keys_of_lookup this

theorem nodup_keys_erase {m : BlockMap} (k : Nat) (h : (bmKeys m).Nodup) :
    (bmKeys (bmErase m k)).Nodup := by
  induction m with
  | nil => simp [bmErase, bmKeys]
  | cons e m ih =>
    simp only [bmKeys, List.map_cons, List.nodup_cons] at h
    by_cases hek : e.1 = k
    · simpa [bmErase, hek] using ih h.2
    · simp only [bmErase, if_neg hek, bmKeys, List.map_cons, List.nodup_cons]
      refine ⟨fun hm => ?_, ih h.2⟩
      exact h.1 (mem_keys_erase.1 hm).1

theorem nodup_keys_insert {m : BlockMap} (k : Nat) (b : BlockHeader)
    (h : (bmKeys m).Nodup) : (bmKeys (bmInsert m k b)).Nodup := by
  simp only [bmInsert, bmKeys, List.map_cons, List.nodup_cons]
  refine ⟨fun hm => ?_, nodup_keys_erase k h⟩
  exact (mem_keys_erase.1 hm).2 rfl

theorem nodup_keys_modify {m : BlockMap} (k : Nat) (f : BlockHeader → BlockHeader)
    (h : (bmKeys m).Nodup) : (bmKeys (bmModify m k f)).Nodup := by
  rw [bmKeys_modify]; exact h

theorem length_bmModify (m : BlockMap) (k : Nat) (f : BlockHeader → BlockHeader) :
    (bmModify m k f).length = m.length := by
  induction m with
  | nil => rfl
  | cons e m ih => by_cases h : e.1 = k <;> simp [bmModify, h, ih]

theorem length_bmErase_le (m : BlockMap) (k : Nat) :
    (bmErase m k).length ≤ m.length := by
  induction m with
  | nil => exact Nat.le_refl _
  | cons e m ih =>
    by_cases h : e.1 = k
    · simp only [bmErase, if_pos h, List.length_cons]
      exact Nat.le_succ_of_le ih
    · simp only [bmErase, if_neg h, List.length_cons]
      exact Nat.succ_le_succ ih

theorem length_bmErase_lt {m : BlockMap} {k : Nat} (h : k ∈ bmKeys m) :
    (bmErase m k).length < m.length := by
  induction m with
  | nil => simp [bmKeys] at h
  | cons e m ih =>
    by_cases hek : e.1 = k
    · simp only [bmErase, if_pos hek, List.length_cons]
      exact Nat.lt_succ_of_le (length_bmErase_le m k)
    · simp only [bmKeys, List.map_cons, List.mem_cons] at h
      rcases h with h | h
      · exact absurd h.symm hek
      · simp only [bmErase, if_neg hek, List.length_cons]
        exact Nat.succ_lt_succ (ih h)

theorem mem_of_bmLookup {m : BlockMap} {k : Nat} {b : BlockHeader}
    (h : bmLookup m k = some b) : (k, b) ∈ m := by
  induction m with
  | nil => exact Option.noConfusion h
  | cons e m ih =>
    by_cases hek : e.1 = k
    · simp only [bmLookup, if_pos hek] at h
      cases h
      obtain ⟨e1, e2⟩ := e
      cases hek
      exact List.mem_cons_self _ _
    · simp only [bmLookup, if_neg hek] at h
      exact List.mem_cons_of_mem _ (ih h)

theorem bmLookup_of_mem_nodup {m : BlockMap} {k : Nat} {b : BlockHeader}
    (hd : (bmKeys m).Nodup) (h : (k, b) ∈ m) : bmLookup m k = some b := by
  induction m with
  | nil => simp at h
  | cons e m ih =>
    simp only [bmKeys, List.map_cons, List.nodup_cons] at hd
    rcases List.mem_cons.1 h with rfl | hm
    · simp [bmLookup]
    · have hek : e.1 ≠ k := by
        intro hh
        exact hd.1 (hh ▸ by simpa [bmKeys] using List.mem_map_of_mem (fun x => x.1) hm)
      simp only [bmLookup, if_neg hek]
      exact ih hd.2 hm

theorem bmModify_fixed {m : BlockMap} {k : Nat} {f : BlockHeader → BlockHeader}
    (hf : ∀ b, (k, b) ∈ m → f b = b) : bmModify m k f = m := by
  induction m with
  | nil => rfl
  | cons e m ih =>
    simp only [bmModify]
    by_cases hek : e.1 = k
    · have he : f e.2 = e.2 := hf e.2 (by cases e; simp_all)
      rw [if_pos hek, he]
      refine congrArg (fun l => e :: l) (ih fun b hb => hf b (List.mem_cons_of_mem _ hb))
    · rw [if_neg hek]
      exact congrArg (fun l => e :: l) (ih fun b hb => hf b (List.mem_cons_of_mem _ hb))

/-! ## Alignment arithmetic -/

theorem align_lt_Wd (size : Nat) : align size < Wd := by
  have h1 : align size ≤ (size + 3) % Wd := Nat.div_mul_le_self _ 4
  exact Nat.lt_of_le_of_lt h1 (Nat.mod_lt _ Wd_pos)

theorem align_mod4 (size : Nat) : align size % 4 = 0 := by
  simp [align, Nat.mul_mod_left]

theorem align_small {size : Nat} (h : size + 3 < Wd) :
    align size = (size + 3) / 4 * 4 := by
  simp [align, Nat.mod_eq_of_lt h]

theorem align_ge {size : Nat} (h : size + 3 < Wd) : size ≤ align size := by
  rw [align_small h]; omega

theorem align_le {size : Nat} (h : size + 3 < Wd) : align size ≤ size + 3 := by
  rw [align_small h]; omega

theorem align_add3_lt (size : Nat) : align size + 3 < Wd := by
  have h1 := align_lt_Wd size
  have h2 := align_mod4 size
  rw [Wd_eq] at h1 ⊢
  omega

theorem align_align (size : Nat) : align (align size) = align size := by
  have h1 := align_add3_lt size
  have h2 := align_mod4 size
  rw [align_small h1]
  omega

theorem align_zero : align 0 = 0 := by decide

/-! ## Claim C1 — oversized requests -/

/-- C1: the claim fails on the code.  There is no `OversizedRequest` guard in
`mem_alloc`: for the request `2^64 - 2` the computation `(size + 3) & ~3`
wraps to `0`, and `mem_alloc` silently hands out a pointer (`4112`) to a
block whose payload size is `0` carved out of the existing arena, instead of
returning `none`. -/
theorem C1_oversized_request_wraps :
    (mem_alloc ⟨4096, [⟨4096, 4096⟩], [(4096, ⟨4080, true, true, true⟩)]⟩
        (2 ^ 64 - 2) none).1 = some 4112 ∧
    bmLookup (mem_alloc ⟨4096, [⟨4096, 4096⟩], [(4096, ⟨4080, true, true, true⟩)]⟩
        (2 ^ 64 - 2) none).2.block_map 4096 = some ⟨0, false, true, false⟩ ∧
    align (2 ^ 64 - 2) = 0 := by decide

/-! ## Claim C7 — splitting -/

/-- C7: `block_split` on the tracked block at `k` with an aligned request
`sz`.  When `size - sz` leaves room for a header plus at least 4 payload
bytes (`sz + Hs + 4 ≤ b.size`) the block is shrunk to exactly `sz` and loses
`is_last`, and a new free block at `k + Hs + sz` is registered with the
inherited `is_last`, `is_first = false` and the remaining payload; otherwise
the map is unchanged and the block keeps its full original size. -/
theorem C7_block_split (m : BlockMap) (k sz : Nat) (b : BlockHeader)
    (hk : bmLookup m k = some b) (ha : align sz = sz)
    (hb : b.size < Wd) (hsz : sz + Hs + 4 < Wd) (hnk : k + Hs + sz < Wd) :
    (sz + Hs + 4 ≤ b.size →
      bmLookup (block_split m k sz) k = some ⟨sz, b.is_free, b.is_first, false⟩ ∧
      bmLookup (block_split m k sz) (k + Hs + sz) =
        some ⟨b.size - sz - Hs, true, false, b.is_last⟩) ∧
    (b.size < sz + Hs + 4 → block_split m k sz = m) := by
  have hmod : (sz + Hs + 4) % Wd = sz + Hs + 4 := Nat.mod_eq_of_lt hsz
  have hnkmod : (k + Hs + sz) % Wd = k + Hs + sz := Nat.mod_eq_of_lt hnk
  have hkne : k ≠ k + Hs + sz := by rw [Hs_eq]; omega
  constructor
  · intro hcond
    have hsub1 : subw b.size sz = b.size - sz := by
      refine subw_small ?_ hb
      rw [Hs_eq] at hcond; omega
    have hsub2 : subw (b.size - sz) Hs = b.size - sz - Hs := by
      refine subw_small ?_ (Nat.lt_of_le_of_lt (Nat.sub_le _ _) hb)
      rw [Hs_eq] at hcond ⊢; omega
    simp only [block_split, ha, hk, hmod, if_pos hcond, hnkmod, hsub1, hsub2]
    constructor
    · rw [bmLookup_modify_self, bmLookup_insert_ne _ _ hkne, hk]
      rfl
    · rw [bmLookup_modify_ne _ _ (Ne.symm hkne), bmLookup_insert_self]
  · intro h
    have : ¬ (sz + Hs + 4) % Wd ≤ b.size := by rw [hmod]; omega
    simp only [block_split, ha, hk, if_neg this]

/-- Witness for C7 at a concrete input: a free 100-byte block at address 100
split for an aligned request of 40 bytes. -/
theorem C7_block_split_witness :
    bmLookup (block_split [(100, ⟨100, true, true, true⟩)] 100 40) 100 =
      some ⟨40, true, true, false⟩ ∧
    bmLookup (block_split [(100, ⟨100, true, true, true⟩)] 100 40) 156 =
      some ⟨44, true, false, true⟩ := by
  have h := C7_block_split [(100, ⟨100, true, true, true⟩)] 100 40
    ⟨100, true, true, true⟩ (by decide) (by decide) (by decide)
    (by decide) (by decide)
  exact h.1 (by decide)

/-! ## Claim C10 — reallocate to size zero -/

theorem block_split_lookup_self (m : BlockMap) (k sz : Nat) (b : BlockHeader)
    (hk : bmLookup m k = some b) (hnz : (Hs + align sz) % Wd ≠ 0) :
    ∃ b', bmLookup (block_split m k sz) k = some b' ∧ b'.is_free = b.is_free := by
  have hkne : (k + Hs + align sz) % Wd ≠ k := by
    intro hh
    rw [Wd_eq] at hh hnz
    omega
  simp only [block_split, hk]
  by_cases hcond : (align sz + Hs + 4) % Wd ≤ b.size
  · rw [if_pos hcond]
    refine ⟨⟨align sz, b.is_free, b.is_first, false⟩, ?_, rfl⟩
    rw [bmLookup_modify_self, bmLookup_insert_ne _ _ (Ne.symm hkne), hk]
    rfl
  · rw [if_neg hcond]
    exact ⟨b, hk, rfl⟩

/-- C10: for a tracked pointer `p`, `reallocate(p, 0)` takes the in-place
branch (the aligned size `0` always satisfies `size <= block.size`), returns
`p` itself, and does not free the block (`is_free` is unchanged; the block
may only be shrunk by the split).  In contrast `allocate(0)` returns `none`
with no state mutated. -/
theorem C10_realloc_zero (st : AllocState) (p : Nat) (b : BlockHeader) (osB : Option Nat)
    (hk : bmLookup st.block_map (subw p Hs) = some b) :
    (mem_realloc st (some p) 0 osB).1 = some p ∧
    (∃ b', bmLookup (mem_realloc st (some p) 0 osB).2.block_map (subw p Hs) = some b' ∧
      b'.is_free = b.is_free) ∧
    mem_alloc st 0 osB = (none, st) := by
  have hz : align 0 = 0 := align_zero
  have hle : align 0 ≤ b.size := by rw [hz]; exact Nat.zero_le _
  simp only [mem_realloc, hk, if_pos hle]
  refine ⟨trivial, ?_, rfl⟩
  exact block_split_lookup_self st.block_map (subw p Hs) 0 b hk (by decide)

/-- Witness for C10 at a concrete input: a live 200-byte block at address
4096, pointer 4112. -/
theorem C10_realloc_zero_witness :
    (mem_realloc ⟨4096, [⟨4096, 4096⟩], [(4096, ⟨200, false, true, true⟩)]⟩
        (some 4112) 0 none).1 = some 4112 ∧
    (∃ b', bmLookup (mem_realloc ⟨4096, [⟨4096, 4096⟩], [(4096, ⟨200, false, true, true⟩)]⟩
        (some 4112) 0 none).2.block_map
        (subw 4112 Hs) = some b' ∧
      b'.is_free = (⟨200, false, true, true⟩ : BlockHeader).is_free) ∧
    mem_alloc ⟨4096, [⟨4096, 4096⟩], [(4096, ⟨200, false, true, true⟩)]⟩ 0 none =
      (none, ⟨4096, [⟨4096, 4096⟩], [(4096, ⟨200, false, true, true⟩)]⟩) :=
  C10_realloc_zero _ 4112 ⟨200, false, true, true⟩ none (by decide)

/-! ## Coalescing-pass machinery (claims C4 and C8)

One merge step of `block_unite` replaces the map by
`bmErase (bmModify m k g) j` where `g` grows the block at `k` (preserving
`is_free`) and `j` is the absorbed successor.  The lemmas below track lookups
and freeness through such steps, then through `uniteInner` and the whole
pass. -/

theorem lookup_step (m : BlockMap) (k j x : Nat) (f : BlockHeader → BlockHeader) :
    bmLookup (bmErase (bmModify m k f) j) x =
      if x = j then none
      else if x = k then (bmLookup m k).map f else bmLookup m x := by
  by_cases hxj : x = j
  · simp [hxj, bmLookup_erase_self]
  · rw [bmLookup_erase_ne _ hxj, if_neg hxj]
    by_cases hxk : x = k
    · simp [hxk, bmLookup_modify_self]
    · simp [bmLookup_modify_ne _ _ hxk, hxk]

theorem freeAt_step_mono (m : BlockMap) (k j x : Nat) (f : BlockHeader → BlockHeader)
    (hf : ∀ b, (f b).is_free = b.is_free)
    (h : freeAt (bmErase (bmModify m k f) j) x = true) : freeAt m x = true := by
  simp only [freeAt] at h ⊢
  rw [lookup_step] at h
  by_cases hxj : x = j
  · rw [if_pos hxj] at h
    exact absurd h (by simp)
  · rw [if_neg hxj] at h
    by_cases hxk : x = k
    · subst hxk
      rw [if_pos rfl] at h
      cases hm : bmLookup m x with
      | none => rw [hm] at h; exact absurd h (by simp)
      | some b0 => rw [hm] at h; simpa [hf b0] using h
    · rwa [if_neg hxk] at h

theorem uniteInner_eq_none (f : Nat) (m : BlockMap) (k : Nat)
    (hl : bmLookup m k = none) : uniteInner (f + 1) m k = m := by
  simp [uniteInner, hl]

theorem uniteInner_eq_notfree (f : Nat) (m : BlockMap) (k : Nat) (b : BlockHeader)
    (hl : bmLookup m k = some b) (hf : b.is_free = false) :
    uniteInner (f + 1) m k = m := by
  simp [uniteInner, hl, hf]

theorem uniteInner_eq_nosucc (f : Nat) (m : BlockMap) (k : Nat) (b : BlockHeader)
    (hl : bmLookup m k = some b) (hf : b.is_free = true)
    (hn : bmLookup m (succOf k b) = none) : uniteInner (f + 1) m k = m := by
  simp [uniteInner, hl, hf, hn]

theorem uniteInner_eq_succ_notfree (f : Nat) (m : BlockMap) (k : Nat)
    (b nb : BlockHeader) (hl : bmLookup m k = some b) (hf : b.is_free = true)
    (hn : bmLookup m (succOf k b) = some nb) (hnf : nb.is_free = false) :
    uniteInner (f + 1) m k = m := by
  simp [uniteInner, hl, hf, hn, hnf]

theorem uniteInner_eq_merge (f : Nat) (m : BlockMap) (k : Nat)
    (b nb : BlockHeader) (hl : bmLookup m k = some b) (hf : b.is_free = true)
    (hn : bmLookup m (succOf k b) = some nb) (hnf : nb.is_free = true) :
    uniteInner (f + 1) m k = uniteInner f (mergeStep m k b nb) k := by
  simp [uniteInner, hl, hf, hn, hnf, mergeStep]

theorem mergeStep_lookup (m : BlockMap) (k x : Nat) (b nb : BlockHeader) :
    bmLookup (mergeStep m k b nb) x =
      if x = succOf k b then none
      else if x = k then
        (bmLookup m k).map
          (fun h => ⟨(h.size + Hs + nb.size) % Wd, h.is_free, h.is_first, nb.is_last⟩)
      else bmLookup m x := by
  simp only [mergeStep]
  exact lookup_step m k (succOf k b) x _

theorem mergeStep_freeAt_mono (m : BlockMap) (k x : Nat) (b nb : BlockHeader)
    (h : freeAt (mergeStep m k b nb) x = true) : freeAt m x = true := by
  simp only [mergeStep] at h
  exact freeAt_step_mono m k (succOf k b) x
    (fun h0 => ⟨(h0.size + Hs + nb.size) % Wd, h0.is_free, h0.is_first, nb.is_last⟩)
    (fun c => rfl) h

theorem mergeStep_nodup (m : BlockMap) (k : Nat) (b nb : BlockHeader)
    (hd : (bmKeys m).Nodup) : (bmKeys (mergeStep m k b nb)).Nodup :=
  nodup_keys_erase _ (nodup_keys_modify _ _ hd)

theorem mergeStep_length_lt (m : BlockMap) (k : Nat) (b nb : BlockHeader)
    (hn : bmLookup m (succOf k b) = some nb) :
    (mergeStep m k b nb).length < m.length := by
  have hmem : succOf k b ∈ bmKeys
      (bmModify m k
        (fun h => ⟨(h.size + Hs + nb.size) % Wd, h.is_free, h.is_first, nb.is_last⟩)) := by
    rw [bmKeys_modify]
    exact mem_keys_of_lookup hn
  have h1 := length_bmErase_lt hmem
  rw [length_bmModify] at h1
  exact h1

/-- Case analysis principle for one `uniteInner` step: either the step is the
identity and the merge condition at `k` fails, or it merges once. -/
theorem uniteInner_step_cases (f : Nat) (m : BlockMap) (k : Nat) :
    (uniteInner (f + 1) m k = m ∧ mergeable m k = false) ∨
    (∃ b nb, bmLookup m k = some b ∧ b.is_free = true ∧
      bmLookup m (succOf k b) = some nb ∧ nb.is_free = true ∧
      uniteInner (f + 1) m k = uniteInner f (mergeStep m k b nb) k) := by
  cases hl : bmLookup m k with
  | none => exact Or.inl ⟨uniteInner_eq_none f m k hl, by simp [mergeable, hl]⟩
  | some b =>
    cases hf : b.is_free with
    | false =>
      exact Or.inl ⟨uniteInner_eq_notfree f m k b hl hf, by simp [mergeable, hl, hf]⟩
    | true =>
      cases hn : bmLookup m (succOf k b) with
      | none =>
        exact Or.inl ⟨uniteInner_eq_nosucc f m k b hl hf hn,
          by simp [mergeable, hl, hf, freeAt, hn]⟩
      | some nb =>
        cases hnf : nb.is_free with
        | false =>
          exact Or.inl ⟨uniteInner_eq_succ_notfree f m k b nb hl hf hn hnf,
            by simp [mergeable, hl, hf, freeAt, hn, hnf]⟩
        | true =>
          exact Or.inr ⟨b, nb, rfl, hf, hn, hnf, uniteInner_eq_merge f m k b nb hl hf hn hnf⟩

theorem uniteInner_of_not_mergeable (fuel : Nat) (m : BlockMap) (k : Nat)
    (h : mergeable m k = false) : uniteInner fuel m k = m := by
  cases fuel with
  | zero => rfl
  | succ f =>
    rcases uniteInner_step_cases f m k with ⟨he, _⟩ | ⟨b, nb, hl, hf, hn, hnf, _⟩
    · exact he
    · exfalso
      simp [mergeable, hl, hf, freeAt, hn, hnf] at h

theorem uniteInner_lookup_free (fuel : Nat) (m : BlockMap) (k x : Nat) {b' : BlockHeader}
    (h : bmLookup (uniteInner fuel m k) x = some b') :
    ∃ b0, bmLookup m x = some b0 ∧ b'.is_free = b0.is_free := by
  induction fuel generalizing m with
  | zero => exact ⟨b', h, rfl⟩
  | succ f ih =>
    rcases uniteInner_step_cases f m k with ⟨he, _⟩ | ⟨b, nb, hl, hf, hn, hnf, he⟩
    · rw [he] at h
      exact ⟨b', h, rfl⟩
    · rw [he] at h
      obtain ⟨b1, hb1, hfr⟩ := ih _ h
      rw [mergeStep_lookup] at hb1
      by_cases hxj : x = succOf k b
      · rw [if_pos hxj] at hb1
        exact Option.noConfusion hb1
      · rw [if_neg hxj] at hb1
        by_cases hxk : x = k
        · rw [if_pos hxk, hl] at hb1
          simp only [Option.map_some'] at hb1
          cases hb1
          exact ⟨b, by rw [hxk, hl], by simpa using hfr⟩
        · rw [if_neg hxk] at hb1
          exact ⟨b1, hb1, hfr⟩

theorem uniteInner_lookup_ne (fuel : Nat) (m : BlockMap) (k x : Nat) (hxk : x ≠ k) :
    bmLookup (uniteInner fuel m k) x = bmLookup m x ∨
    bmLookup (uniteInner fuel m k) x = none := by
  induction fuel generalizing m with
  | zero => exact Or.inl rfl
  | succ f ih =>
    rcases uniteInner_step_cases f m k with ⟨he, _⟩ | ⟨b, nb, hl, hf, hn, hnf, he⟩
    · rw [he]
      exact Or.inl rfl
    · rw [he]
      rcases ih (mergeStep m k b nb) with h | h
      · rw [h, mergeStep_lookup]
        by_cases hxj : x = succOf k b
        · rw [if_pos hxj]
          exact Or.inr rfl
        · rw [if_neg hxj, if_neg hxk]
          exact Or.inl rfl
      · exact Or.inr h

theorem uniteInner_freeAt_mono (fuel : Nat) (m : BlockMap) (k x : Nat)
    (h : freeAt (uniteInner fuel m k) x = true) : freeAt m x = true := by
  induction fuel generalizing m with
  | zero => exact h
  | succ f ih =>
    rcases uniteInner_step_cases f m k with ⟨he, _⟩ | ⟨b, nb, hl, hf, hn, hnf, he⟩
    · rwa [he] at h
    · rw [he] at h
      exact mergeStep_freeAt_mono m k x b nb (ih _ h)

theorem uniteInner_nodup (fuel : Nat) (m : BlockMap) (k : Nat)
    (hd : (bmKeys m).Nodup) : (bmKeys (uniteInner fuel m k)).Nodup := by
  induction fuel generalizing m with
  | zero => exact hd
  | succ f ih =>
    rcases uniteInner_step_cases f m k with ⟨he, _⟩ | ⟨b, nb, hl, hf, hn, hnf, he⟩
    · rwa [he]
    · rw [he]
      exact ih _ (mergeStep_nodup m k b nb hd)

theorem uniteInner_post (fuel : Nat) (m : BlockMap) (k : Nat)
    (hd : (bmKeys m).Nodup) (hfuel : m.length < fuel) :
    mergeable (uniteInner fuel m k) k = false := by
  induction fuel generalizing m with
  | zero => exact absurd hfuel (Nat.not_lt_zero _)
  | succ f ih =>
    rcases uniteInner_step_cases f m k with ⟨he, hme⟩ | ⟨b, nb, hl, hf, hn, hnf, he⟩
    · rw [he]
      exact hme
    · rw [he]
      have hlen : (mergeStep m k b nb).length < f := by
        have h1 := mergeStep_length_lt m k b nb hn
        omega
      exact ih _ (mergeStep_nodup m k b nb hd) hlen

theorem mergeable_of_not_mem {m : BlockMap} {x : Nat} (h : x ∉ bmKeys m) :
    mergeable m x = false := by
  rw [← bmLookup_none_iff] at h
  simp [mergeable, h]

theorem uniteInner_not_mergeable_ne (fuel : Nat) (m : BlockMap) (k x : Nat)
    (hxk : x ≠ k) (hx : mergeable m x = false) :
    mergeable (uniteInner fuel m k) x = false := by
  cases hl : bmLookup (uniteInner fuel m k) x with
  | none => simp [mergeable, hl]
  | some b' =>
    rcases uniteInner_lookup_ne fuel m k x hxk with h | h
    · have hm : bmLookup m x = some b' := by rw [← h]; exact hl
      simp only [mergeable, hl]
      simp only [mergeable, hm] at hx
      cases hfr : b'.is_free with
      | false => simp [hfr]
      | true =>
        rw [hfr] at hx
        simp only [Bool.true_and] at hx
        simp only [Bool.true_and]
        cases hfin : freeAt (uniteInner fuel m k) (succOf x b') with
        | false => rfl
        | true => exact absurd (uniteInner_freeAt_mono fuel m k _ hfin) (by simp [hx])
    · rw [h] at hl
      exact Option.noConfusion hl

theorem block_unite_nil (m : BlockMap) : block_unite m [] = m := rfl

theorem block_unite_cons (m : BlockMap) (k : Nat) (rest : List Nat) :
    block_unite m (k :: rest) = block_unite (uniteInner (m.length + 1) m k) rest := rfl

theorem block_unite_fixed (m : BlockMap) (order : List Nat) (h : noAdjFree m) :
    block_unite m order = m := by
  induction order with
  | nil => rfl
  | cons k rest ih =>
    rw [block_unite_cons, uniteInner_of_not_mergeable _ _ _ (h k)]
    exact ih

theorem block_unite_nodup (m : BlockMap) (order : List Nat)
    (hd : (bmKeys m).Nodup) : (bmKeys (block_unite m order)).Nodup := by
  induction order generalizing m with
  | nil => exact hd
  | cons k rest ih =>
    rw [block_unite_cons]
    exact ih _ (uniteInner_nodup _ m k hd)

theorem block_unite_lookup_free (m : BlockMap) (order : List Nat) (x : Nat)
    {b' : BlockHeader} (h : bmLookup (block_unite m order) x = some b') :
    ∃ b0, bmLookup m x = some b0 ∧ b'.is_free = b0.is_free := by
  induction order generalizing m with
  | nil => exact ⟨b', h, rfl⟩
  | cons k rest ih =>
    rw [block_unite_cons] at h
    obtain ⟨b1, hb1, h1⟩ := ih _ h
    obtain ⟨b0, hb0, h0⟩ := uniteInner_lookup_free _ m k x hb1
    exact ⟨b0, hb0, h1.trans h0⟩

theorem block_unite_noAdjFree_aux (order : List Nat) (m : BlockMap)
    (hd : (bmKeys m).Nodup)
    (hinv : ∀ x, mergeable m x = false ∨ x ∈ order) :
    noAdjFree (block_unite m order) := by
  induction order generalizing m with
  | nil =>
    intro x
    rcases hinv x with h | h
    · exact h
    · simp at h
  | cons k rest ih =>
    rw [block_unite_cons]
    refine ih _ (uniteInner_nodup _ m k hd) (fun x => ?_)
    by_cases hmem : x ∈ k :: rest
    · rcases List.mem_cons.1 hmem with rfl | hx
      · exact Or.inl (uniteInner_post _ m x hd (Nat.lt_succ_self _))
      · exact Or.inr hx
    · have hx : mergeable m x = false := by
        rcases hinv x with h | h
        · exact h
        · exact absurd h hmem
      have hxk : x ≠ k := fun hh => hmem (hh ▸ List.mem_cons_self _ _)
      exact Or.inl (uniteInner_not_mergeable_ne _ m k x hxk hx)

theorem block_unite_noAdjFree (m : BlockMap) (order : List Nat)
    (hd : (bmKeys m).Nodup) (hcov : ∀ x ∈ bmKeys m, x ∈ order) :
    noAdjFree (block_unite m order) := by
  refine block_unite_noAdjFree_aux order m hd (fun x => ?_)
  by_cases hx : x ∈ bmKeys m
  · exact Or.inr (hcov x hx)
  · exact Or.inl (mergeable_of_not_mem hx)

/-! ## Claim C4 — coalescing is idempotent and order-independent -/

/-- C4: for any Block Table with unrepeated keys and any traversal order that
visits every tracked key, one coalescing pass leaves no two address-adjacent
tracked blocks both free, and a second pass — under any traversal order —
returns the Block Table unchanged. -/
theorem C4_coalesce_idempotent (m : BlockMap) (o1 : List Nat)
    (hd : (bmKeys m).Nodup) (hcov : ∀ x ∈ bmKeys m, x ∈ o1) :
    (∀ o2, block_unite (block_unite m o1) o2 = block_unite m o1) ∧
    noAdjFree (block_unite m o1) := by
  have h := block_unite_noAdjFree m o1 hd hcov
  exact ⟨fun o2 => block_unite_fixed _ o2 h, h⟩

/-- Witness for C4: two adjacent free blocks at 0 and 32 coalesce in one
pass; the second pass is the identity. -/
theorem C4_coalesce_idempotent_witness :
    (∀ o2, block_unite (block_unite
        [(0, ⟨16, true, true, false⟩), (32, ⟨0, true, false, true⟩)] [0, 32]) o2 =
      block_unite [(0, ⟨16, true, true, false⟩), (32, ⟨0, true, false, true⟩)] [0, 32]) ∧
    noAdjFree (block_unite
      [(0, ⟨16, true, true, false⟩), (32, ⟨0, true, false, true⟩)] [0, 32]) :=
  C4_coalesce_idempotent _ [0, 32] (by decide) (by decide)

/-! ## Claim C8 — freeing -/

/-- C8: `mem_free` is a no-op on a null pointer and on a pointer whose
candidate header address `p - Hs` is untracked; on a tracked pointer it sets
`is_free := true` unconditionally and then runs a full coalescing pass; and
freeing the same pointer twice equals freeing it once. -/
theorem C8_mem_free (st : AllocState) (p : Nat) (hd : (bmKeys st.block_map).Nodup) :
    mem_free st none = st ∧
    (subw p Hs ∉ bmKeys st.block_map → mem_free st (some p) = st) ∧
    (∀ b, bmLookup st.block_map (subw p Hs) = some b →
      mem_free st (some p) = ⟨st.default_arena_size, st.arena_list,
        block_unite (bmModify st.block_map (subw p Hs)
          (fun h => ⟨h.size, true, h.is_first, h.is_last⟩)) (bmKeys st.block_map)⟩) ∧
    mem_free (mem_free st (some p)) (some p) = mem_free st (some p) := by
  refine ⟨rfl, ?_, ?_, ?_⟩
  · intro h
    have hnone : bmLookup st.block_map (subw p Hs) = none := (bmLookup_none_iff _ _).2 h
    simp [mem_free, mem_free_ord, hnone]
  · intro b hb
    simp [mem_free, mem_free_ord, hb]
  · cases hl : bmLookup st.block_map (subw p Hs) with
    | none =>
      have h1 : mem_free st (some p) = st := by simp [mem_free, mem_free_ord, hl]
      rw [h1]
      exact h1
    | some b =>
      have h1 : mem_free st (some p) = ⟨st.default_arena_size, st.arena_list,
          block_unite (bmModify st.block_map (subw p Hs)
            (fun h => ⟨h.size, true, h.is_first, h.is_last⟩)) (bmKeys st.block_map)⟩ := by
        simp [mem_free, mem_free_ord, hl]
      rw [h1]
      have hd1 : (bmKeys (bmModify st.block_map (subw p Hs)
          (fun h => ⟨h.size, true, h.is_first, h.is_last⟩))).Nodup :=
        nodup_keys_modify _ _ hd
      have hcov : ∀ x ∈ bmKeys (bmModify st.block_map (subw p Hs)
          (fun h => ⟨h.size, true, h.is_first, h.is_last⟩)), x ∈ bmKeys st.block_map := by
        intro x hx
        rwa [bmKeys_modify] at hx
      have hadj : noAdjFree (block_unite (bmModify st.block_map (subw p Hs)
          (fun h => ⟨h.size, true, h.is_first, h.is_last⟩)) (bmKeys st.block_map)) :=
        block_unite_noAdjFree _ _ hd1 hcov
      have hdU : (bmKeys (block_unite (bmModify st.block_map (subw p Hs)
          (fun h => ⟨h.size, true, h.is_first, h.is_last⟩)) (bmKeys st.block_map))).Nodup :=
        block_unite_nodup _ _ hd1
      cases hl2 : bmLookup (block_unite (bmModify st.block_map (subw p Hs)
          (fun h => ⟨h.size, true, h.is_first, h.is_last⟩)) (bmKeys st.block_map))
          (subw p Hs) with
      | none => simp [mem_free, mem_free_ord, hl2]
      | some b' =>
        have hfr : b'.is_free = true := by
          obtain ⟨b0, hb0, hf0⟩ := block_unite_lookup_free _ _ _ hl2
          rw [bmLookup_modify_self, hl] at hb0
          simp only [Option.map_some'] at hb0
          cases hb0
          simpa using hf0
        have hfix : bmModify (block_unite (bmModify st.block_map (subw p Hs)
            (fun h => ⟨h.size, true, h.is_first, h.is_last⟩)) (bmKeys st.block_map))
            (subw p Hs) (fun h => ⟨h.size, true, h.is_first, h.is_last⟩) =
            block_unite (bmModify st.block_map (subw p Hs)
              (fun h => ⟨h.size, true, h.is_first, h.is_last⟩)) (bmKeys st.block_map) := by
          refine bmModify_fixed (fun c hc => ?_)
          have := bmLookup_of_mem_nodup hdU hc
          rw [hl2] at this
          cases this
          cases b'
          simp_all
        simp only [mem_free, mem_free_ord, hl2, hfix]
        rw [block_unite_fixed _ _ hadj]

/-- Witness for C8 at a concrete input: one live block at 4096, freed via
pointer 4112, twice. -/
theorem C8_mem_free_witness :
    mem_free ⟨4096, [⟨4096, 4096⟩], [(4096, ⟨4080, false, true, true⟩)]⟩ none =
      ⟨4096, [⟨4096, 4096⟩], [(4096, ⟨4080, false, true, true⟩)]⟩ ∧
    (subw 4112 Hs ∉ bmKeys [(4096, (⟨4080, false, true, true⟩ : BlockHeader))] →
      mem_free ⟨4096, [⟨4096, 4096⟩], [(4096, ⟨4080, false, true, true⟩)]⟩ (some 4112) =
        ⟨4096, [⟨4096, 4096⟩], [(4096, ⟨4080, false, true, true⟩)]⟩) ∧
    (∀ b, bmLookup [(4096, (⟨4080, false, true, true⟩ : BlockHeader))] (subw 4112 Hs) = some b →
      mem_free ⟨4096, [⟨4096, 4096⟩], [(4096, ⟨4080, false, true, true⟩)]⟩ (some 4112) =
        ⟨4096, [⟨4096, 4096⟩],
          block_unite (bmModify [(4096, ⟨4080, false, true, true⟩)] (subw 4112 Hs)
            (fun h => ⟨h.size, true, h.is_first, h.is_last⟩))
            (bmKeys [(4096, ⟨4080, false, true, true⟩)])⟩) ∧
    mem_free (mem_free ⟨4096, [⟨4096, 4096⟩], [(4096, ⟨4080, false, true, true⟩)]⟩
        (some 4112)) (some 4112) =
      mem_free ⟨4096, [⟨4096, 4096⟩], [(4096, ⟨4080, false, true, true⟩)]⟩ (some 4112) :=
  C8_mem_free ⟨4096, [⟨4096, 4096⟩], [(4096, ⟨4080, false, true, true⟩)]⟩ 4112 (by decide)

/-! ## `mem_alloc` path lemmas (used for C5, C6, C9) -/

theorem mem_alloc_hit (st : AllocState) (size : Nat) (osB : Option Nat)
    (hz : size ≠ 0) {r : Nat × BlockMap}
    (hTry : tryArenas st.block_map (align size) st.arena_list = some r) :
    mem_alloc st size osB =
      (some r.1, ⟨st.default_arena_size, st.arena_list, r.2⟩) := by
  obtain ⟨p, m⟩ := r
  simp [mem_alloc, hz, hTry]

theorem mem_alloc_miss (st : AllocState) (size : Nat) (osB : Option Nat)
    (hz : size ≠ 0)
    (hTry : tryArenas st.block_map (align size) st.arena_list = none) :
    mem_alloc st size osB =
      match arena_create st ((align size + Hs) % Wd) osB with
      | none => (none, st)
      | some (a, st1) =>
        match block_alloc st1.block_map a (align size) with
        | some (p, m) => (some p, ⟨st1.default_arena_size, st1.arena_list, m⟩)
        | none => (none, st1) := by
  simp [mem_alloc, hz, hTry]

theorem arena_create_none (st : AllocState) (ms : Nat) :
    arena_create st ms none = none := rfl

theorem arena_create_some (st : AllocState) (ms base : Nat) :
    arena_create st ms (some base) =
      some (⟨align (max ms st.default_arena_size), base⟩,
        ⟨st.default_arena_size,
          Arena.mk (align (max ms st.default_arena_size)) base :: st.arena_list,
          bmInsert st.block_map base
            ⟨subw (align (max ms st.default_arena_size)) Hs, true, true, true⟩⟩) := rfl

theorem mem_alloc_fail_lookup (st : AllocState) (size : Nat) (osB : Option Nat) (k : Nat)
    (h1 : (mem_alloc st size osB).1 = none)
    (h2 : ∀ nb, osB = some nb → nb ≠ k) :
    bmLookup (mem_alloc st size osB).2.block_map k = bmLookup st.block_map k := by
  by_cases hz : size = 0
  · simp [mem_alloc, hz]
  · cases hTry : tryArenas st.block_map (align size) st.arena_list with
    | some r =>
      rw [mem_alloc_hit st size osB hz hTry] at h1
      exact absurd h1 (by simp)
    | none =>
      rw [mem_alloc_miss st size osB hz hTry] at h1 ⊢
      cases osB with
      | none => simp [arena_create_none]
      | some base =>
        simp only [arena_create_some] at h1 ⊢
        cases hba : block_alloc
            (bmInsert st.block_map base
              ⟨subw (align (max ((align size + Hs) % Wd) st.default_arena_size)) Hs,
                true, true, true⟩)
            ⟨align (max ((align size + Hs) % Wd) st.default_arena_size), base⟩
            (align size) with
        | some r =>
          obtain ⟨p, m⟩ := r
          rw [hba] at h1
          exact absurd h1 (by simp)
        | none =>
          exact bmLookup_insert_ne _ _ (Ne.symm (h2 base rfl))

/-! ## Claim C9 — reallocation fails atomically -/

/-- C9: `mem_realloc` on an untracked pointer returns `none` with nothing
mutated; and when the growth path's internal allocation fails, it returns
`none` and the original block's header is still tracked and unchanged
(provided the OS does not hand out a region at the very header address). -/
theorem C9_realloc_atomic (st : AllocState) (p size : Nat) (osB : Option Nat) :
    (bmLookup st.block_map (subw p Hs) = none →
      mem_realloc st (some p) size osB = (none, st)) ∧
    (∀ b, bmLookup st.block_map (subw p Hs) = some b → b.size < align size →
      (mem_alloc st (align size) osB).1 = none →
      (∀ nb, osB = some nb → nb ≠ subw p Hs) →
      (mem_realloc st (some p) size osB).1 = none ∧
      bmLookup (mem_realloc st (some p) size osB).2.block_map (subw p Hs) = some b) := by
  constructor
  · intro h
    simp [mem_realloc, h]
  · intro b hb hlt hfail hnb
    have hcond : ¬ align size ≤ b.size := Nat.not_le.2 hlt
    have hpre := mem_alloc_fail_lookup st (align size) osB (subw p Hs) hfail hnb
    simp only [mem_realloc, hb, if_neg hcond]
    cases hma : mem_alloc st (align size) osB with
    | mk r st1 =>
      rw [hma] at hfail hpre
      cases r with
      | none =>
        rw [hb] at hpre
        exact ⟨rfl, hpre⟩
      | some np => exact absurd hfail (by simp)

/-- Witness for C9: a full arena, a live block at 4096 (pointer 4112), a
growth request of 5000 bytes, and a refusing OS provider. -/
theorem C9_realloc_atomic_witness :
    (mem_realloc ⟨4096, [⟨4096, 4096⟩], [(4096, ⟨4080, false, true, true⟩)]⟩
        (some 4112) 5000 none).1 = none ∧
    bmLookup (mem_realloc ⟨4096, [⟨4096, 4096⟩], [(4096, ⟨4080, false, true, true⟩)]⟩
        (some 4112) 5000 none).2.block_map (subw 4112 Hs) =
      some ⟨4080, false, true, true⟩ :=
  (C9_realloc_atomic ⟨4096, [⟨4096, 4096⟩], [(4096, ⟨4080, false, true, true⟩)]⟩
      4112 5000 none).2
    ⟨4080, false, true, true⟩ (by decide) (by decide) (by decide)
    (fun nb h => Option.noConfusion h)

/-! ## Walk lemmas -/

theorem walkList_sound (m : BlockMap) (fuel addr stop : Nat)
    {l : List (Nat × BlockHeader)} (h : walkList m fuel addr stop = some l) :
    WalkR m stop addr l := by
  induction fuel generalizing addr l with
  | zero =>
    simp only [walkList] at h
    by_cases ha : addr < stop
    · rw [if_pos ha] at h; exact Option.noConfusion h
    · rw [if_neg ha] at h; cases h; exact WalkR.nil addr ha
  | succ f ih =>
    simp only [walkList] at h
    by_cases ha : addr < stop
    · rw [if_pos ha] at h
      cases hl : bmLookup m addr with
      | none => simp only [hl] at h; exact Option.noConfusion h
      | some b =>
        simp only [hl] at h
        cases hw : walkList m f ((addr + Hs + b.size) % Wd) stop with
        | none => simp only [hw, Option.map_none'] at h; exact Option.noConfusion h
        | some l' =>
          simp only [hw, Option.map_some'] at h
          cases h
          exact WalkR.cons addr b l' ha hl (ih _ hw)
    · rw [if_neg ha] at h; cases h; exact WalkR.nil addr ha

theorem walkList_complete (m : BlockMap) (stop addr : Nat)
    {l : List (Nat × BlockHeader)} (h : WalkR m stop addr l) :
    ∀ fuel, l.length ≤ fuel → walkList m fuel addr stop = some l := by
  induction h with
  | nil addr ha =>
    intro fuel _
    cases fuel with
    | zero => simp [walkList, ha]
    | succ f => simp [walkList, ha]
  | cons addr b l h1 h2 h3 ih =>
    intro fuel hf
    cases fuel with
    | zero => simp at hf
    | succ f =>
      have : l.length ≤ f := by simpa using hf
      simp [walkList, h1, h2, ih f this]

theorem blockBytes_nil : blockBytes [] = 0 := rfl

theorem blockBytes_cons (x : Nat × BlockHeader) (l : List (Nat × BlockHeader)) :
    blockBytes (x :: l) = Hs + x.2.size + blockBytes l := by
  simp [blockBytes]

theorem blockBytes_cons2 (k : Nat) (b : BlockHeader) (l : List (Nat × BlockHeader)) :
    blockBytes ((k, b) :: l) = Hs + b.size + blockBytes l := by
  simp [blockBytes]

theorem blockBytes_append (l1 l2 : List (Nat × BlockHeader)) :
    blockBytes (l1 ++ l2) = blockBytes l1 + blockBytes l2 := by
  simp [blockBytes]

theorem length_le_blockBytes (l : List (Nat × BlockHeader)) :
    l.length ≤ blockBytes l := by
  induction l with
  | nil => simp [blockBytes]
  | cons x l ih =>
    rw [blockBytes_cons, Hs_eq]
    simp only [List.length_cons]
    omega

/-- Positions along a no-wrap walk: every entry lies in `[addr, stop)`, its
header is what the map stores, and its wrapping step is a real addition. -/
theorem walkR_props (m : BlockMap) (stop addr : Nat) {l : List (Nat × BlockHeader)}
    (h : WalkR m stop addr l) (hnw : ∀ x ∈ l, x.1 + Hs + x.2.size < Wd) :
    ∀ x ∈ l, addr ≤ x.1 ∧ x.1 < stop ∧ bmLookup m x.1 = some x.2 := by
  induction h with
  | nil addr ha => intro x hx; simp at hx
  | cons addr b l h1 h2 h3 ih =>
    intro x hx
    rcases List.mem_cons.1 hx with rfl | hx
    · exact ⟨Nat.le_refl _, h1, h2⟩
    · have hstep : (addr + Hs + b.size) % Wd = addr + Hs + b.size :=
        Nat.mod_eq_of_lt (hnw (addr, b) (List.mem_cons_self _ _))
      have := ih (fun y hy => hnw y (List.mem_cons_of_mem _ hy)) x hx
      refine ⟨?_, this.2.1, this.2.2⟩
      have h1' := this.1
      rw [hstep] at h1'
      rw [Hs_eq] at h1'
      omega

theorem walkR_stop_le (m : BlockMap) (stop addr : Nat) {l : List (Nat × BlockHeader)}
    (h : WalkR m stop addr l) (hnw : ∀ x ∈ l, x.1 + Hs + x.2.size < Wd) :
    stop ≤ addr + blockBytes l := by
  induction h with
  | nil addr ha => rw [blockBytes_nil]; omega
  | cons addr b l h1 h2 h3 ih =>
    have hstep : (addr + Hs + b.size) % Wd = addr + Hs + b.size :=
      Nat.mod_eq_of_lt (hnw (addr, b) (List.mem_cons_self _ _))
    have hih := ih (fun y hy => hnw y (List.mem_cons_of_mem _ hy))
    rw [hstep] at hih
    rw [blockBytes_cons2]
    omega

theorem walkR_decomp (m : BlockMap) (stop addr : Nat) {l : List (Nat × BlockHeader)}
    (h : WalkR m stop addr l) {k : Nat} {b : BlockHeader} (hx : (k, b) ∈ l) :
    ∃ l1 l2, l = l1 ++ (k, b) :: l2 ∧ Seg m stop addr k l1 ∧
      WalkR m stop k ((k, b) :: l2) := by
  induction h with
  | nil addr ha => simp at hx
  | cons addr b0 l h1 h2 h3 ih =>
    rcases List.mem_cons.1 hx with heq | hx
    · injection heq with e1 e2
      subst e1
      subst e2
      exact ⟨[], l, rfl, Seg.nil _, WalkR.cons _ _ _ h1 h2 h3⟩
    · obtain ⟨l1, l2, hsplit, hseg, hwr⟩ := ih hx
      exact ⟨(addr, b0) :: l1, l2, by rw [hsplit]; rfl,
        Seg.cons addr k b0 l1 h1 h2 hseg, hwr⟩

theorem seg_bytes (m : BlockMap) (stop addr p : Nat) {l : List (Nat × BlockHeader)}
    (h : Seg m stop addr p l) (hnw : ∀ x ∈ l, x.1 + Hs + x.2.size < Wd) :
    p = addr + blockBytes l := by
  induction h with
  | nil addr => simp [blockBytes]
  | cons addr p b l h1 h2 h3 ih =>
    have hstep : (addr + Hs + b.size) % Wd = addr + Hs + b.size :=
      Nat.mod_eq_of_lt (hnw (addr, b) (List.mem_cons_self _ _))
    have hih := ih (fun y hy => hnw y (List.mem_cons_of_mem _ hy))
    rw [hstep] at hih
    rw [blockBytes_cons2]
    omega

theorem seg_mem_bounds (m : BlockMap) (stop addr p : Nat) {l : List (Nat × BlockHeader)}
    (h : Seg m stop addr p l) (hnw : ∀ x ∈ l, x.1 + Hs + x.2.size < Wd) :
    ∀ x ∈ l, addr ≤ x.1 ∧ x.1 + Hs + x.2.size ≤ p ∧ x.1 < stop ∧
      bmLookup m x.1 = some x.2 := by
  induction h with
  | nil addr => intro x hx; simp at hx
  | cons addr p b l h1 h2 h3 ih =>
    intro x hx
    have hstep : (addr + Hs + b.size) % Wd = addr + Hs + b.size :=
      Nat.mod_eq_of_lt (hnw (addr, b) (List.mem_cons_self _ _))
    have hb : p = (addr + Hs + b.size) + blockBytes l := by
      have hsb := seg_bytes m stop _ p h3 (fun y hy => hnw y (List.mem_cons_of_mem _ hy))
      rw [hstep] at hsb
      exact hsb
    rcases List.mem_cons.1 hx with rfl | hx
    · refine ⟨Nat.le_refl _, ?_, h1, h2⟩
      show addr + Hs + b.size ≤ p
      omega
    · have hih := ih (fun y hy => hnw y (List.mem_cons_of_mem _ hy)) x hx
      rw [hstep] at hih
      exact ⟨by omega, hih.2.1, hih.2.2.1, hih.2.2.2⟩

theorem walkR_of_seg (m : BlockMap) (stop addr p : Nat)
    {l1 l2 : List (Nat × BlockHeader)} (h1 : Seg m stop addr p l1)
    (h2 : WalkR m stop p l2) : WalkR m stop addr (l1 ++ l2) := by
  induction h1 with
  | nil addr => exact h2
  | cons addr p b l h1' h2' h3 ih =>
    exact WalkR.cons addr b (l ++ l2) h1' h2' (ih h2)

theorem walkR_congr {m m' : BlockMap} (stop addr : Nat) {l : List (Nat × BlockHeader)}
    (h : WalkR m stop addr l) (hl : ∀ x ∈ l, bmLookup m' x.1 = some x.2) :
    WalkR m' stop addr l := by
  induction h with
  | nil addr ha => exact WalkR.nil addr ha
  | cons addr b l h1 h2 h3 ih =>
    exact WalkR.cons addr b l h1 (hl (addr, b) (List.mem_cons_self _ _))
      (ih (fun y hy => hl y (List.mem_cons_of_mem _ hy)))

theorem seg_congr {m m' : BlockMap} (stop addr p : Nat) {l : List (Nat × BlockHeader)}
    (h : Seg m stop addr p l) (hl : ∀ x ∈ l, bmLookup m' x.1 = some x.2) :
    Seg m' stop addr p l := by
  induction h with
  | nil addr => exact Seg.nil addr
  | cons addr p b l h1 h2 h3 ih =>
    exact Seg.cons addr p b l h1 (hl (addr, b) (List.mem_cons_self _ _))
      (ih (fun y hy => hl y (List.mem_cons_of_mem _ hy)))

/-! ## Extracting facts from `wf` -/

theorem wf_parts {st : AllocState} (h : wf st = true) :
    (∀ a ∈ st.arena_list, arenaBounds a = true ∧ arenaOk st.block_map a = true) ∧
    pairwiseSep st.arena_list = true ∧
    coveredKeys st.block_map st.arena_list = true ∧
    (bmKeys st.block_map).Nodup := by
  simp only [wf, Bool.and_eq_true, List.all_eq_true, decide_eq_true_eq] at h
  obtain ⟨⟨⟨h1, h2⟩, h3⟩, h4⟩ := h
  refine ⟨fun a ha => ?_, h2, h3, h4⟩
  have := h1 a ha
  simpa [Bool.and_eq_true] using this

theorem arenaOk_parts {m : BlockMap} {a : Arena} (h : arenaOk m a = true) :
    ∃ l, arenaWalk m a = some l ∧ blockBytes l = a.size ∧
      ∀ x ∈ l, x.1 + Hs + x.2.size < Wd := by
  cases hw : arenaWalk m a with
  | none => rw [arenaOk, hw] at h; exact Bool.noConfusion h
  | some l =>
    rw [arenaOk, hw] at h
    simp only [Bool.and_eq_true, beq_iff_eq, List.all_eq_true, decide_eq_true_eq] at h
    exact ⟨l, rfl, h.1, fun x hx => h.2 x hx⟩

theorem arenaOk_of_parts {m : BlockMap} {a : Arena} {l : List (Nat × BlockHeader)}
    (hw : arenaWalk m a = some l) (hb : blockBytes l = a.size)
    (hnw : ∀ x ∈ l, x.1 + Hs + x.2.size < Wd) : arenaOk m a = true := by
  rw [arenaOk, hw]
  simp only [Bool.and_eq_true, beq_iff_eq, List.all_eq_true, decide_eq_true_eq]
  exact ⟨hb, fun x hx => hnw x hx⟩

/-! ## Claim C5 — first-fit search order -/

theorem blockAllocGo_find (m : BlockMap) (sz stop : Nat) {addr : Nat}
    {l : List (Nat × BlockHeader)} (hw : WalkR m stop addr l) :
    ∀ fuel, l.length ≤ fuel →
    blockAllocGo m sz fuel addr stop =
      match l.find? (fun x => x.2.is_free && decide (sz ≤ x.2.size)) with
      | none => none
      | some x => some ((x.1 + Hs) % Wd,
          bmModify (block_split m x.1 sz) x.1
            (fun h => ⟨h.size, false, h.is_first, h.is_last⟩)) := by
  induction hw with
  | nil addr ha =>
    intro fuel _
    cases fuel with
    | zero => simp [blockAllocGo]
    | succ f => simp [blockAllocGo, ha]
  | cons addr b l h1 h2 h3 ih =>
    intro fuel hf
    cases fuel with
    | zero => simp at hf
    | succ f =>
      have hlen : l.length ≤ f := by simpa using hf
      by_cases hc : b.is_free = true ∧ sz ≤ b.size
      · have hfind : ((addr, b) :: l).find?
            (fun x => x.2.is_free && decide (sz ≤ x.2.size)) = some (addr, b) :=
          List.find?_cons_of_pos _ (by simp [hc.1, hc.2])
        rw [hfind]
        simp only [blockAllocGo, if_pos h1, h2]
        rw [if_pos hc]
      · have hfind : ((addr, b) :: l).find?
            (fun x => x.2.is_free && decide (sz ≤ x.2.size)) =
            l.find? (fun x => x.2.is_free && decide (sz ≤ x.2.size)) :=
          List.find?_cons_of_neg _ (by
            intro hcc
            simp only [Bool.and_eq_true, decide_eq_true_eq] at hcc
            exact hc hcc)
        rw [hfind, ← ih f hlen]
        simp only [blockAllocGo, if_pos h1, h2]
        rw [if_neg hc]

theorem block_alloc_fst (m : BlockMap) (a : Arena) (sz : Nat)
    {l : List (Nat × BlockHeader)} (hwk : arenaWalk m a = some l)
    (hsz : align sz = sz) (hb : blockBytes l = a.size)
    (hnw : ∀ x ∈ l, x.1 + Hs + x.2.size < Wd) :
    Option.map Prod.fst (block_alloc m a sz) = specScanBlocks l sz := by
  have hw := walkList_sound m (a.size + 1) a.base ((a.base + a.size) % Wd) hwk
  have hlen : l.length ≤ a.size + 1 := by
    have h1 := length_le_blockBytes l
    rw [hb] at h1
    omega
  simp only [block_alloc, hsz]
  rw [blockAllocGo_find m sz _ hw (a.size + 1) hlen]
  cases hfind : l.find? (fun x => x.2.is_free && decide (sz ≤ x.2.size)) with
  | none => simp [specScanBlocks, hfind]
  | some x =>
    have hx : x ∈ l := List.mem_of_find?_eq_some hfind
    have hmod : (x.1 + Hs) % Wd = x.1 + Hs := by
      refine Nat.mod_eq_of_lt ?_
      have := hnw x hx
      omega
    simp [specScanBlocks, hfind, hmod]

theorem tryArenas_spec (m : BlockMap) (sz : Nat) (arenas : List Arena)
    (hsz : align sz = sz) (hok : ∀ a ∈ arenas, arenaOk m a = true) :
    Option.map Prod.fst (tryArenas m sz arenas) = specScanArenas m sz arenas := by
  induction arenas with
  | nil => rfl
  | cons a rest ih =>
    obtain ⟨l, hwk, hb, hnw⟩ := arenaOk_parts (hok a (List.mem_cons_self _ _))
    have hba := block_alloc_fst m a sz hwk hsz hb hnw
    simp only [tryArenas, specScanArenas, hwk]
    cases hball : block_alloc m a sz with
    | some r =>
      rw [hball] at hba
      rw [← hba]
      simp
    | none =>
      rw [hball] at hba
      rw [← hba]
      simpa using ih (fun a' ha' => hok a' (List.mem_cons_of_mem _ ha'))

/-- C5: under well-formedness, `mem_alloc` implements the spec's first-fit
search: arenas are scanned in list order (most recently created first, since
`arena_create` prepends), blocks are walked from each arena's base in address
order, and the returned pointer is the address just past the header of the
first free block whose size is at least the aligned request.  The concrete
conjunct is the spec's scenario: after three 200-byte allocations and a free
of the middle one, the next 200-byte allocation reuses the freed slot
(pointer 4328). -/
theorem C5_first_fit (st : AllocState) (size : Nat) (osB : Option Nat) (p : Nat)
    (hwf : wf st = true) (hz : size ≠ 0)
    (hs : specScan st (align size) = some p) :
    (mem_alloc st size osB).1 = some p ∧
    (mem_alloc c5state 200 none).1 = some 4328 := by
  constructor
  · have hok : ∀ a ∈ st.arena_list, arenaOk st.block_map a = true :=
      fun a ha => ((wf_parts hwf).1 a ha).2
    have hspec := tryArenas_spec st.block_map (align size) st.arena_list
      (align_align size) hok
    rw [specScan] at hs
    rw [hs] at hspec
    cases hTry : tryArenas st.block_map (align size) st.arena_list with
    | none => rw [hTry] at hspec; exact absurd hspec (by simp)
    | some r =>
      rw [hTry] at hspec
      simp only [Option.map_some'] at hspec
      cases hspec
      rw [mem_alloc_hit st size osB hz hTry]
  · decide

/-- Witness for C5 at the scenario state itself. -/
theorem C5_first_fit_witness :
    (mem_alloc c5state 200 none).1 = some 4328 ∧
    (mem_alloc c5state 200 none).1 = some 4328 :=
  C5_first_fit c5state 200 none 4328 (by decide) (by decide) (by decide)

/-! ## Claim C6 — arena growth on a miss -/

/-- C6: when the scan over all existing arenas misses, `mem_alloc` creates
exactly one new arena of size `newArenaSize` — at least the aligned request
plus header size, and at least the configured default — retries only against
that arena, and if arena creation fails the whole operation returns `(none,
st)` with no state created.  The concrete conjunct is the spec's scenario:
after `configure(4096)` and `allocate(2000)`, `allocate(8501)` creates a new
arena of 8520 >= 8504 + 16 bytes. -/
theorem C6_new_arena (st : AllocState) (size base : Nat)
    (hz : size ≠ 0)
    (hTry : tryArenas st.block_map (align size) st.arena_list = none)
    (hof : align size + Hs + 3 < Wd)
    (hd3 : st.default_arena_size + 3 < Wd) :
    mem_alloc st size none = (none, st) ∧
    (mem_alloc st size (some base)).2.arena_list =
      Arena.mk (newArenaSize st size) base :: st.arena_list ∧
    align size + Hs ≤ newArenaSize st size ∧
    st.default_arena_size ≤ newArenaSize st size ∧
    (mem_alloc st size (some base)).1 = Option.map Prod.fst
      (block_alloc
        (bmInsert st.block_map base ⟨subw (newArenaSize st size) Hs, true, true, true⟩)
        ⟨newArenaSize st size, base⟩ (align size)) ∧
    ((mem_alloc c6state 8501 (some 16384)).2.arena_list =
        [⟨8520, 16384⟩, ⟨4096, 4096⟩] ∧
      (mem_alloc c6state 8501 (some 16384)).1 = some 16400 ∧
      align 8501 + Hs ≤ 8520) := by
  have hmod : (align size + Hs) % Wd = align size + Hs := by
    refine Nat.mod_eq_of_lt ?_
    omega
  have hsize : newArenaSize st size =
      align (max ((align size + Hs) % Wd) st.default_arena_size) := rfl
  have hmax3 : max ((align size + Hs) % Wd) st.default_arena_size + 3 < Wd := by
    rw [hmod]
    omega
  have hge : max ((align size + Hs) % Wd) st.default_arena_size ≤ newArenaSize st size := by
    rw [hsize]
    exact align_ge hmax3
  refine ⟨?_, ?_, ?_, ?_, ?_, by decide⟩
  · rw [mem_alloc_miss st size none hz hTry]
    rfl
  · rw [mem_alloc_miss st size (some base) hz hTry]
    simp only [arena_create_some]
    cases hba : block_alloc
        (bmInsert st.block_map base
          ⟨subw (align (max ((align size + Hs) % Wd) st.default_arena_size)) Hs,
            true, true, true⟩)
        ⟨align (max ((align size + Hs) % Wd) st.default_arena_size), base⟩
        (align size) with
    | some r =>
      obtain ⟨q, mq⟩ := r
      rw [hsize]
    | none =>
      rw [hsize]
  · refine le_trans ?_ hge
    rw [hmod]
    exact Nat.le_max_left _ _
  · refine le_trans ?_ hge
    rw [hmod]
    exact Nat.le_max_right _ _
  · rw [mem_alloc_miss st size (some base) hz hTry]
    simp only [arena_create_some]
    rw [← hsize]
    cases hba : block_alloc
        (bmInsert st.block_map base
          ⟨subw (newArenaSize st size) Hs, true, true, true⟩)
        ⟨newArenaSize st size, base⟩ (align size) with
    | some r =>
      obtain ⟨q, mq⟩ := r
      rfl
    | none => rfl

/-- Witness for C6 at the scenario input: after `allocate(2000)` the arena
has only 2064 free bytes, so `allocate(8501)` misses. -/
theorem C6_new_arena_witness :
    mem_alloc c6state 8501 none = (none, c6state) ∧
    (mem_alloc c6state 8501 (some 16384)).2.arena_list =
      Arena.mk (newArenaSize c6state 8501) 16384 :: c6state.arena_list ∧
    align 8501 + Hs ≤ newArenaSize c6state 8501 ∧
    c6state.default_arena_size ≤ newArenaSize c6state 8501 ∧
    (mem_alloc c6state 8501 (some 16384)).1 = Option.map Prod.fst
      (block_alloc
        (bmInsert c6state.block_map 16384
          ⟨subw (newArenaSize c6state 8501) Hs, true, true, true⟩)
        ⟨newArenaSize c6state 8501, 16384⟩ (align 8501)) ∧
    ((mem_alloc c6state 8501 (some 16384)).2.arena_list =
        [⟨8520, 16384⟩, ⟨4096, 4096⟩] ∧
      (mem_alloc c6state 8501 (some 16384)).1 = some 16400 ∧
      align 8501 + Hs ≤ 8520) :=
  C6_new_arena c6state 8501 16384 (by decide) (by decide) (by decide) (by decide)

/-! ## Arena separation and key-coverage helpers -/

theorem bmErase_of_not_mem {m : BlockMap} {k : Nat} (h : k ∉ bmKeys m) :
    bmErase m k = m := by
  induction m with
  | nil => rfl
  | cons e m ih =>
    simp only [bmKeys, List.map_cons, List.mem_cons, not_or] at h
    rw [bmErase, if_neg (fun hh => h.1 hh.symm)]
    exact congrArg (fun l => e :: l) (ih (by simpa [bmKeys] using h.2))

theorem bmModify_of_not_mem {m : BlockMap} {k : Nat} (f : BlockHeader → BlockHeader)
    (h : k ∉ bmKeys m) : bmModify m k f = m := by
  induction m with
  | nil => rfl
  | cons e m ih =>
    simp only [bmKeys, List.map_cons, List.mem_cons, not_or] at h
    rw [bmModify, if_neg (fun hh => h.1 hh.symm)]
    exact congrArg (fun l => e :: l) (ih (by simpa [bmKeys] using h.2))

theorem wf_of_parts {st : AllocState}
    (h1 : ∀ a ∈ st.arena_list, arenaBounds a = true ∧ arenaOk st.block_map a = true)
    (h2 : pairwiseSep st.arena_list = true)
    (h3 : coveredKeys st.block_map st.arena_list = true)
    (h4 : (bmKeys st.block_map).Nodup) : wf st = true := by
  simp only [wf, Bool.and_eq_true, List.all_eq_true, decide_eq_true_eq]
  refine ⟨⟨⟨fun a ha => ?_, h2⟩, h3⟩, h4⟩
  simp [Bool.and_eq_true, (h1 a ha).1, (h1 a ha).2]

theorem pairwiseSep_rel {L : List Arena} (h : pairwiseSep L = true) {a a' : Arena}
    (ha : a ∈ L) (ha' : a' ∈ L) (hne : a ≠ a') :
    sepArena a a' = true ∨ sepArena a' a = true := by
  induction L with
  | nil => simp at ha
  | cons c rest ih =>
    simp only [pairwiseSep, Bool.and_eq_true, List.all_eq_true] at h
    rcases List.mem_cons.1 ha with rfl | haR
    · rcases List.mem_cons.1 ha' with rfl | haR'
      · exact absurd rfl hne
      · exact Or.inl (h.1 a' haR')
    · rcases List.mem_cons.1 ha' with rfl | haR'
      · exact Or.inr (h.1 a haR)
      · exact ih h.2 haR haR'

theorem sep_disjoint {a a' : Arena}
    (h : sepArena a a' = true ∨ sepArena a' a = true) (x : Nat)
    (hx1 : a.base ≤ x) (hx2 : x ≤ a.base + a.size) :
    ¬ (a'.base ≤ x ∧ x < a'.base + a'.size) := by
  simp only [sepArena, Bool.or_eq_true, decide_eq_true_eq] at h
  rcases h with h | h <;> rcases h with h | h <;> omega

theorem walk_mem_range {m : BlockMap} {a : Arena} {l : List (Nat × BlockHeader)}
    (hw : arenaWalk m a = some l)
    (hnw : ∀ x ∈ l, x.1 + Hs + x.2.size < Wd) (hbnd : arenaBounds a = true) :
    ∀ x ∈ l, a.base ≤ x.1 ∧ x.1 < a.base + a.size ∧ bmLookup m x.1 = some x.2 := by
  have hstop : (a.base + a.size) % Wd = a.base + a.size := by
    simp only [arenaBounds, decide_eq_true_eq] at hbnd
    exact Nat.mod_eq_of_lt (by omega)
  have hwr := walkList_sound _ _ _ _ hw
  intro x hx
  have hprops := walkR_props _ _ _ hwr hnw x hx
  rw [hstop] at hprops
  exact hprops

theorem covered_arena {st : AllocState} (hwf : wf st = true) {x : Nat}
    (hx : x ∈ bmKeys st.block_map) :
    ∃ a ∈ st.arena_list, ∃ l, arenaWalk st.block_map a = some l ∧
      ∃ y ∈ l, y.1 = x := by
  obtain ⟨hA, hSep, hCov, hNd⟩ := wf_parts hwf
  simp only [coveredKeys, List.all_eq_true] at hCov
  obtain ⟨b, hb⟩ := bmLookup_isSome_of_mem hx
  have he := hCov (x, b) (mem_of_bmLookup hb)
  simp only [List.any_eq_true] at he
  obtain ⟨a, ha, hin⟩ := he
  cases hwk : arenaWalk st.block_map a with
  | none => rw [inWalk, hwk] at hin; exact Bool.noConfusion hin
  | some l =>
    rw [inWalk, hwk] at hin
    simp only [List.any_eq_true, beq_iff_eq] at hin
    obtain ⟨y, hy, hyx⟩ := hin
    exact ⟨a, ha, l, hwk, y, hy, hyx⟩

theorem key_in_range {st : AllocState} (hwf : wf st = true) {x : Nat}
    (hx : x ∈ bmKeys st.block_map) :
    ∃ a ∈ st.arena_list, a.base ≤ x ∧ x < a.base + a.size := by
  obtain ⟨a, ha, l, hwk, y, hy, hyx⟩ := covered_arena hwf hx
  obtain ⟨hA, _, _, _⟩ := wf_parts hwf
  obtain ⟨l', hwk', hb, hnw⟩ := arenaOk_parts (hA a ha).2
  rw [hwk] at hwk'
  cases hwk'
  have := walk_mem_range hwk hnw (hA a ha).1 y hy
  rw [hyx] at this
  exact ⟨a, ha, this.1, this.2.1⟩

theorem covered_cases {st : AllocState} (hwf : wf st = true) {a : Arena}
    (ha : a ∈ st.arena_list) {lA : List (Nat × BlockHeader)}
    (hwk : arenaWalk st.block_map a = some lA) {x : Nat}
    (hx : x ∈ bmKeys st.block_map) :
    (∃ y ∈ lA, y.1 = x) ∨ ¬ (a.base ≤ x ∧ x < a.base + a.size) := by
  obtain ⟨a3, ha3, l3, hwk3, y, hy, hyx⟩ := covered_arena hwf hx
  obtain ⟨hA, hSep, _, _⟩ := wf_parts hwf
  by_cases hval : a3 = a
  · subst hval
    rw [hwk3] at hwk
    cases hwk
    exact Or.inl ⟨y, hy, hyx⟩
  · right
    intro hrange
    obtain ⟨l3', hwk3', hb3, hnw3⟩ := arenaOk_parts (hA a3 ha3).2
    rw [hwk3] at hwk3'
    cases hwk3'
    have hmem := walk_mem_range hwk3 hnw3 (hA a3 ha3).1 y hy
    rw [hyx] at hmem
    have hsep := pairwiseSep_rel hSep ha3 ha hval
    exact sep_disjoint hsep x hmem.1 (Nat.le_of_lt (by omega)) hrange

theorem mem_bytes_le {l : List (Nat × BlockHeader)} {y : Nat × BlockHeader}
    (hy : y ∈ l) : Hs + y.2.size ≤ blockBytes l := by
  induction l with
  | nil => simp at hy
  | cons x l ih =>
    rw [blockBytes_cons]
    rcases List.mem_cons.1 hy with rfl | hy
    · omega
    · have := ih hy
      omega

/-- Generic well-formedness preservation: the map changes only at addresses
`K` inside arena `a`'s range, and `a` has a complete new walk `lnew` summing
to its size whose addresses cover every surviving key that lies in `a`'s
range. -/
theorem wf_surgery (st : AllocState) (m' : BlockMap) (a : Arena)
    (lnew : List (Nat × BlockHeader)) (K : Nat → Prop)
    (hwf : wf st = true) (ha : a ∈ st.arena_list)
    (hpres : ∀ x, ¬ K x → bmLookup m' x = bmLookup st.block_map x)
    (hK : ∀ x, K x → a.base ≤ x ∧ x < a.base + a.size)
    (hwalk : WalkR m' ((a.base + a.size) % Wd) a.base lnew)
    (hbytes : blockBytes lnew = a.size)
    (hnw : ∀ x ∈ lnew, x.1 + Hs + x.2.size < Wd)
    (hcov' : ∀ x ∈ bmKeys m', (∃ y ∈ lnew, y.1 = x) ∨
      (x ∈ bmKeys st.block_map ∧ ¬ (a.base ≤ x ∧ x < a.base + a.size)))
    (hnd' : (bmKeys m').Nodup) :
    wf ⟨st.default_arena_size, st.arena_list, m'⟩ = true := by
  obtain ⟨hA, hSep, hCov, hNd⟩ := wf_parts hwf
  have hwkA : arenaWalk m' a = some lnew := by
    refine walkList_complete m' _ _ hwalk (a.size + 1) ?_
    have h1 := length_le_blockBytes lnew
    omega
  have hother : ∀ a2 ∈ st.arena_list, a2 ≠ a →
      ∃ l2, arenaWalk st.block_map a2 = some l2 ∧ arenaWalk m' a2 = some l2 ∧
        blockBytes l2 = a2.size ∧ ∀ x ∈ l2, x.1 + Hs + x.2.size < Wd := by
    intro a2 ha2 hne
    obtain ⟨l2, hwk2, hb2, hnw2⟩ := arenaOk_parts (hA a2 ha2).2
    have hlook : ∀ x ∈ l2, bmLookup m' x.1 = some x.2 := by
      intro x hx
      have hrange := walk_mem_range hwk2 hnw2 (hA a2 ha2).1 x hx
      have hnotK : ¬ K x.1 := by
        intro hk
        have hK1 := hK x.1 hk
        have hsep := pairwiseSep_rel hSep ha ha2 (Ne.symm hne)
        exact sep_disjoint hsep x.1 hK1.1 (Nat.le_of_lt (by omega))
          ⟨hrange.1, hrange.2.1⟩
      rw [hpres x.1 hnotK]
      exact hrange.2.2
    have hwr2' := walkR_congr _ _ (walkList_sound _ _ _ _ hwk2) hlook
    have hlen2 : l2.length ≤ a2.size + 1 := by
      have h1 := length_le_blockBytes l2
      omega
    exact ⟨l2, hwk2, walkList_complete _ _ _ hwr2' _ hlen2, hb2, hnw2⟩
  refine wf_of_parts ?_ hSep ?_ hnd'
  · intro a2 ha2
    by_cases hval : a2 = a
    · subst hval
      exact ⟨(hA a2 ha2).1, arenaOk_of_parts hwkA hbytes hnw⟩
    · obtain ⟨l2, _, hwk2', hb2, hnw2⟩ := hother a2 ha2 hval
      exact ⟨(hA a2 ha2).1, arenaOk_of_parts hwk2' hb2 hnw2⟩
  · simp only [coveredKeys, List.all_eq_true]
    intro e he
    have hx : e.1 ∈ bmKeys m' := List.mem_map_of_mem (fun z => z.1) he
    simp only [List.any_eq_true]
    rcases hcov' e.1 hx with ⟨y, hy, hyx⟩ | ⟨hxold, hxnr⟩
    · refine ⟨a, ha, ?_⟩
      rw [inWalk, hwkA]
      simp only [List.any_eq_true, beq_iff_eq]
      exact ⟨y, hy, hyx⟩
    · obtain ⟨a3, ha3, l3, hwk3, y, hy, hyx⟩ := covered_arena hwf hxold
      have hval : a3 ≠ a := by
        intro hh
        subst hh
        obtain ⟨l3', hwk3', hb3, hnw3⟩ := arenaOk_parts (hA a3 ha3).2
        rw [hwk3] at hwk3'
        cases hwk3'
        have hrange := walk_mem_range hwk3 hnw3 (hA a3 ha3).1 y hy
        rw [hyx] at hrange
        exact hxnr ⟨hrange.1, hrange.2.1⟩
      obtain ⟨l2, hwk2, hwk2', _, _⟩ := hother a3 ha3 hval
      rw [hwk3] at hwk2
      cases hwk2
      refine ⟨a3, ha3, ?_⟩
      rw [inWalk, hwk2']
      simp only [List.any_eq_true, beq_iff_eq]
      exact ⟨y, hy, hyx⟩

theorem walkR_map_modify {m : BlockMap} {stop addr : Nat}
    {l : List (Nat × BlockHeader)} (k : Nat) (f : BlockHeader → BlockHeader)
    (hsz : ∀ b, (f b).size = b.size) (h : WalkR m stop addr l) :
    WalkR (bmModify m k f) stop addr
      (l.map (fun x => if x.1 = k then (x.1, f x.2) else x)) := by
  induction h with
  | nil addr ha => exact WalkR.nil addr ha
  | cons addr b l h1 h2 h3 ih =>
    simp only [List.map_cons]
    by_cases hak : addr = k
    · have hl : bmLookup (bmModify m k f) addr = some (f b) := by
        subst hak
        rw [bmLookup_modify_self, h2]
        rfl
      have hstep : (addr + Hs + (f b).size) % Wd = (addr + Hs + b.size) % Wd := by
        rw [hsz b]
      simp only [if_pos hak]
      refine WalkR.cons addr (f b) _ h1 hl ?_
      rw [hstep]
      exact ih
    · have hl : bmLookup (bmModify m k f) addr = some b := by
        rw [bmLookup_modify_ne _ _ hak]
        exact h2
      simp only [if_neg hak]
      exact WalkR.cons addr b _ h1 hl ih

theorem blockBytes_map_modify (l : List (Nat × BlockHeader)) (k : Nat)
    (f : BlockHeader → BlockHeader) (hsz : ∀ b, (f b).size = b.size) :
    blockBytes (l.map (fun x => if x.1 = k then (x.1, f x.2) else x)) =
      blockBytes l := by
  induction l with
  | nil => rfl
  | cons x l ih =>
    simp only [List.map_cons, blockBytes_cons, ih]
    by_cases hak : x.1 = k
    · simp [if_pos hak, hsz x.2]
    · simp [if_neg hak]

theorem wf_modify (st : AllocState) (k : Nat) (f : BlockHeader → BlockHeader)
    (hsz : ∀ b, (f b).size = b.size) (hwf : wf st = true) :
    wf ⟨st.default_arena_size, st.arena_list, bmModify st.block_map k f⟩ = true := by
  by_cases hk : k ∈ bmKeys st.block_map
  · obtain ⟨a, ha, lA, hwkA, y, hy, hyx⟩ := covered_arena hwf hk
    obtain ⟨hA, hSep, hCov, hNd⟩ := wf_parts hwf
    obtain ⟨lA', hwkA', hbA, hnwA⟩ := arenaOk_parts (hA a ha).2
    rw [hwkA] at hwkA'
    cases hwkA'
    have hstop : (a.base + a.size) % Wd = a.base + a.size := by
      have := (hA a ha).1
      simp only [arenaBounds, decide_eq_true_eq] at this
      exact Nat.mod_eq_of_lt (by omega)
    refine wf_surgery st _ a
      (lA.map (fun x => if x.1 = k then (x.1, f x.2) else x)) (fun x => x = k)
      hwf ha ?_ ?_ ?_ ?_ ?_ ?_ ?_
    · intro x hx
      exact bmLookup_modify_ne _ _ hx
    · intro x hx
      subst hx
      have := walk_mem_range hwkA hnwA (hA a ha).1 y hy
      rw [hyx] at this
      exact ⟨this.1, this.2.1⟩
    · exact walkR_map_modify k f hsz (walkList_sound _ _ _ _ hwkA)
    · rw [blockBytes_map_modify lA k f hsz]
      exact hbA
    · intro x hx
      obtain ⟨y', hy', hyx'⟩ := List.mem_map.1 hx
      have hsz' : x.2.size = y'.2.size ∧ x.1 = y'.1 := by
        by_cases hak : y'.1 = k
        · rw [if_pos hak] at hyx'
          cases hyx'
          exact ⟨hsz y'.2, rfl⟩
        · rw [if_neg hak] at hyx'
          cases hyx'
          exact ⟨rfl, rfl⟩
      have := hnwA y' hy'
      omega
    · intro x hx
      rw [bmKeys_modify] at hx
      rcases covered_cases hwf ha hwkA hx with ⟨y', hy', hyx'⟩ | hnr
      · refine Or.inl ⟨(if y'.1 = k then (y'.1, f y'.2) else y'),
          List.mem_map_of_mem _ hy', ?_⟩
        by_cases hak : y'.1 = k
        · rw [if_pos hak]
          exact hyx'
        · rw [if_neg hak]
          exact hyx'
      · exact Or.inr ⟨hx, hnr⟩
    · rw [bmKeys_modify]
      exact hNd
  · rw [bmModify_of_not_mem f hk]
    exact hwf

theorem wf_split (st : AllocState) (k sz : Nat) (b : BlockHeader)
    (hwf : wf st = true) (hk : bmLookup st.block_map k = some b)
    (hle : align sz ≤ b.size) :
    wf ⟨st.default_arena_size, st.arena_list, block_split st.block_map k sz⟩ = true := by
  have hHs : Hs = 16 := rfl
  obtain ⟨hA, hSep, hCov, hNd⟩ := wf_parts hwf
  have hkk : k ∈ bmKeys st.block_map := mem_keys_of_lookup hk
  obtain ⟨a, ha, lA, hwkA, y, hy, hyx⟩ := covered_arena hwf hkk
  obtain ⟨lA', hwkA', hbA, hnwA⟩ := arenaOk_parts (hA a ha).2
  rw [hwkA] at hwkA'
  cases hwkA'
  have hbnd : a.base + a.size + 32 ≤ Wd := by
    have := (hA a ha).1
    simpa [arenaBounds, decide_eq_true_eq] using this
  have hstop : (a.base + a.size) % Wd = a.base + a.size := Nat.mod_eq_of_lt (by omega)
  have hyr := walk_mem_range hwkA hnwA (hA a ha).1 y hy
  have hkb : (k, b) ∈ lA := by
    have hyeq : y = (k, b) := by
      have h2 := hyr.2.2
      rw [hyx, hk] at h2
      obtain ⟨y1, y2⟩ := y
      simp only at hyx
      cases h2
      rw [hyx]
    rw [← hyeq]
    exact hy
  have hbsz : Hs + b.size ≤ a.size := by
    have := mem_bytes_le hkb
    rw [hbA] at this
    exact this
  have hknw : k + Hs + b.size < Wd := hnwA (k, b) hkb
  have hkrange := walk_mem_range hwkA hnwA (hA a ha).1 (k, b) hkb
  have hkr1 : a.base ≤ k := hkrange.1
  have hkr2 : k < a.base + a.size := hkrange.2.1
  have hszlt : align sz + Hs + 4 < Wd := by omega
  have hmodc : (align sz + Hs + 4) % Wd = align sz + Hs + 4 := Nat.mod_eq_of_lt hszlt
  simp only [block_split, hk, hmodc]
  by_cases hcond : align sz + Hs + 4 ≤ b.size
  · rw [if_pos hcond]
    have hkne : k ≠ k + Hs + align sz := by omega
    have hnkmod : (k + Hs + align sz) % Wd = k + Hs + align sz :=
      Nat.mod_eq_of_lt (by omega)
    rw [hnkmod]
    have hsub : subw (subw b.size (align sz)) Hs = b.size - align sz - Hs := by
      rw [subw_small hle (by omega), subw_small (by omega) (by omega)]
    rw [hsub]
    obtain ⟨l1, l2, hsplitL, hseg, hwr2⟩ :=
      walkR_decomp _ _ _ (walkList_sound _ _ _ _ hwkA) hkb
    have hnw1 : ∀ x ∈ l1, x.1 + Hs + x.2.size < Wd := fun x hx =>
      hnwA x (by rw [hsplitL]; exact List.mem_append_left _ hx)
    have hnw2 : ∀ x ∈ l2, x.1 + Hs + x.2.size < Wd := fun x hx =>
      hnwA x (by rw [hsplitL]; exact List.mem_append_right _ (List.mem_cons_of_mem _ hx))
    have hsegb := seg_bytes _ _ _ _ hseg hnw1
    have hby : blockBytes l1 + (Hs + b.size + blockBytes l2) = a.size := by
      have hh := hbA
      rw [hsplitL, blockBytes_append, blockBytes_cons2] at hh
      exact hh
    cases hwr2 with
    | cons _ _ _ hklt hklook hwr2' =>
    rw [Nat.mod_eq_of_lt hknw] at hwr2'
    have hl2props := walkR_props _ _ _ hwr2' hnw2
    have hl1props := seg_mem_bounds _ _ _ _ hseg hnw1
    have hlookup_other : ∀ x, x ≠ k → x ≠ k + Hs + align sz →
        bmLookup (bmModify (bmInsert st.block_map (k + Hs + align sz)
            ⟨b.size - align sz - Hs, true, false, b.is_last⟩) k
          (fun h => ⟨align sz, h.is_free, h.is_first, false⟩)) x =
          bmLookup st.block_map x := by
      intro x h1 h2
      rw [bmLookup_modify_ne _ _ h1, bmLookup_insert_ne _ _ h2]
    have hlookup_k : bmLookup (bmModify (bmInsert st.block_map (k + Hs + align sz)
          ⟨b.size - align sz - Hs, true, false, b.is_last⟩) k
        (fun h => ⟨align sz, h.is_free, h.is_first, false⟩)) k =
        some ⟨align sz, b.is_free, b.is_first, false⟩ := by
      rw [bmLookup_modify_self, bmLookup_insert_ne _ _ hkne, hk]
      rfl
    have hlookup_nk : bmLookup (bmModify (bmInsert st.block_map (k + Hs + align sz)
          ⟨b.size - align sz - Hs, true, false, b.is_last⟩) k
        (fun h => ⟨align sz, h.is_free, h.is_first, false⟩)) (k + Hs + align sz) =
        some ⟨b.size - align sz - Hs, true, false, b.is_last⟩ := by
      rw [bmLookup_modify_ne _ _ (Ne.symm hkne), bmLookup_insert_self]
    have hw2' : WalkR (bmModify (bmInsert st.block_map (k + Hs + align sz)
          ⟨b.size - align sz - Hs, true, false, b.is_last⟩) k
        (fun h => ⟨align sz, h.is_free, h.is_first, false⟩))
        ((a.base + a.size) % Wd) (k + Hs + b.size) l2 := by
      refine walkR_congr _ _ hwr2' (fun x hx => ?_)
      have hp1 := (hl2props x hx).1
      rw [hlookup_other x.1 (by omega) (by omega)]
      exact (hl2props x hx).2.2
    have hwnk : WalkR (bmModify (bmInsert st.block_map (k + Hs + align sz)
          ⟨b.size - align sz - Hs, true, false, b.is_last⟩) k
        (fun h => ⟨align sz, h.is_free, h.is_first, false⟩))
        ((a.base + a.size) % Wd) (k + Hs + align sz)
        ((k + Hs + align sz, ⟨b.size - align sz - Hs, true, false, b.is_last⟩) :: l2) := by
      refine WalkR.cons _ _ _ ?_ hlookup_nk ?_
      · rw [hstop]
        omega
      · have hq : (k + Hs + align sz + Hs +
            (⟨b.size - align sz - Hs, true, false, b.is_last⟩ : BlockHeader).size) % Wd =
            k + Hs + b.size := by
          show (k + Hs + align sz + Hs + (b.size - align sz - Hs)) % Wd = k + Hs + b.size
          have he : k + Hs + align sz + Hs + (b.size - align sz - Hs) =
              k + Hs + b.size := by omega
          rw [he]
          exact Nat.mod_eq_of_lt hknw
        rw [hq]
        exact hw2'
    have hwk' : WalkR (bmModify (bmInsert st.block_map (k + Hs + align sz)
          ⟨b.size - align sz - Hs, true, false, b.is_last⟩) k
        (fun h => ⟨align sz, h.is_free, h.is_first, false⟩))
        ((a.base + a.size) % Wd) k
        ((k, ⟨align sz, b.is_free, b.is_first, false⟩) ::
          (k + Hs + align sz, ⟨b.size - align sz - Hs, true, false, b.is_last⟩) :: l2) := by
      refine WalkR.cons _ _ _ hklt hlookup_k ?_
      have hq : (k + Hs + (⟨align sz, b.is_free, b.is_first, false⟩ : BlockHeader).size) % Wd =
          k + Hs + align sz := hnkmod
      rw [hq]
      exact hwnk
    have hseg' : Seg (bmModify (bmInsert st.block_map (k + Hs + align sz)
          ⟨b.size - align sz - Hs, true, false, b.is_last⟩) k
        (fun h => ⟨align sz, h.is_free, h.is_first, false⟩))
        ((a.base + a.size) % Wd) a.base k l1 := by
      refine seg_congr _ _ _ hseg (fun x hx => ?_)
      have hp1 := (hl1props x hx).2.1
      rw [hlookup_other x.1 (by omega) (by omega)]
      exact (hl1props x hx).2.2.2
    have hnkfresh : k + Hs + align sz ∉ bmKeys st.block_map := by
      intro hmem
      rcases covered_cases hwf ha hwkA hmem with ⟨y', hy', hyx'⟩ | hnr
      · rw [hsplitL] at hy'
        rcases List.mem_append.1 hy' with hy1 | hy2
        · have := (hl1props y' hy1).2.1
          omega
        · rcases List.mem_cons.1 hy2 with heq | hy2
          · rw [heq] at hyx'
            simp only at hyx'
            omega
          · have := (hl2props y' hy2).1
            omega
      · exact hnr ⟨by omega, by omega⟩
    have hkeys' : bmKeys (bmModify (bmInsert st.block_map (k + Hs + align sz)
          ⟨b.size - align sz - Hs, true, false, b.is_last⟩) k
        (fun h => ⟨align sz, h.is_free, h.is_first, false⟩)) =
        (k + Hs + align sz) :: bmKeys st.block_map := by
      rw [bmKeys_modify, bmInsert, bmErase_of_not_mem hnkfresh]
      rfl
    refine wf_surgery st _ a
      ((l1 ++ (k, ⟨align sz, b.is_free, b.is_first, false⟩) ::
        (k + Hs + align sz, ⟨b.size - align sz - Hs, true, false, b.is_last⟩) :: l2))
      (fun x => x = k ∨ x = k + Hs + align sz) hwf ha ?_ ?_ ?_ ?_ ?_ ?_ ?_
    · intro x hx
      exact hlookup_other x (fun hh => hx (Or.inl hh)) (fun hh => hx (Or.inr hh))
    · intro x hx
      rcases hx with rfl | rfl
      · exact ⟨hkr1, hkr2⟩
      · exact ⟨by omega, by omega⟩
    · exact walkR_of_seg _ _ _ _ hseg' hwk'
    · rw [blockBytes_append, blockBytes_cons2, blockBytes_cons2]
      have hbS : (⟨align sz, b.is_free, b.is_first, false⟩ : BlockHeader).size =
          align sz := rfl
      have hnb : (⟨b.size - align sz - Hs, true, false, b.is_last⟩ : BlockHeader).size =
          b.size - align sz - Hs := rfl
      rw [hbS, hnb]
      omega
    · intro x hx
      rcases List.mem_append.1 hx with hx1 | hx2
      · exact hnw1 x hx1
      · rcases List.mem_cons.1 hx2 with rfl | hx3
        · show k + Hs + (⟨align sz, b.is_free, b.is_first, false⟩ : BlockHeader).size < Wd
          show k + Hs + align sz < Wd
          omega
        · rcases List.mem_cons.1 hx3 with rfl | hx4
          · show k + Hs + align sz + Hs +
              (⟨b.size - align sz - Hs, true, false, b.is_last⟩ : BlockHeader).size < Wd
            show k + Hs + align sz + Hs + (b.size - align sz - Hs) < Wd
            omega
          · exact hnw2 x hx4
    · intro x hx
      rw [hkeys'] at hx
      rcases List.mem_cons.1 hx with rfl | hx
      · refine Or.inl ⟨(k + Hs + align sz,
          ⟨b.size - align sz - Hs, true, false, b.is_last⟩), ?_, rfl⟩
        exact List.mem_append_right _ (List.mem_cons_of_mem _ (List.mem_cons_self _ _))
      · rcases covered_cases hwf ha hwkA hx with ⟨y', hy', hyx'⟩ | hnr
        · rw [hsplitL] at hy'
          rcases List.mem_append.1 hy' with hy1 | hy2
          · exact Or.inl ⟨y', List.mem_append_left _ hy1, hyx'⟩
          · rcases List.mem_cons.1 hy2 with heq | hy2
            · refine Or.inl ⟨(k, ⟨align sz, b.is_free, b.is_first, false⟩),
                List.mem_append_right _ (List.mem_cons_self _ _), ?_⟩
              rw [heq] at hyx'
              exact hyx'
            · exact Or.inl ⟨y', List.mem_append_right _
                (List.mem_cons_of_mem _ (List.mem_cons_of_mem _ hy2)), hyx'⟩
        · exact Or.inr ⟨hx, hnr⟩
    · rw [hkeys']
      exact List.Nodup.cons (by simpa using hnkfresh) hNd
  · rw [if_neg hcond]
    exact hwf

theorem walkR_cons_inv {m : BlockMap} {stop addr : Nat} {x : Nat × BlockHeader}
    {l : List (Nat × BlockHeader)} (h : WalkR m stop addr (x :: l)) :
    x.1 = addr ∧ addr < stop ∧ bmLookup m addr = some x.2 ∧
    WalkR m stop ((addr + Hs + x.2.size) % Wd) l := by
  cases h with
  | cons addr b l h1 h2 h3 => exact ⟨rfl, h1, h2, h3⟩

/-- In a well-formed state, a tracked block whose successor address is also
tracked has that successor as the next block of the same arena's walk: the
case where the block is last in its arena is impossible, because the arena's
end address is strictly separated from every arena's range. -/
theorem succ_in_walk (st : AllocState) (hwf : wf st = true) (k : Nat)
    (b nb : BlockHeader) (hk : bmLookup st.block_map k = some b)
    (hn : bmLookup st.block_map (succOf k b) = some nb) :
    ∃ a ∈ st.arena_list, ∃ lA l1 l2,
      arenaWalk st.block_map a = some lA ∧
      lA = l1 ++ (k, b) :: (succOf k b, nb) :: l2 ∧
      succOf k b = k + Hs + b.size ∧
      Seg st.block_map ((a.base + a.size) % Wd) a.base k l1 ∧
      WalkR st.block_map ((a.base + a.size) % Wd)
        ((k + Hs + b.size + Hs + nb.size) % Wd) l2 ∧
      k < (a.base + a.size) % Wd := by
  have hHs : Hs = 16 := rfl
  obtain ⟨hA, hSep, hCov, hNd⟩ := wf_parts hwf
  have hkk : k ∈ bmKeys st.block_map := mem_keys_of_lookup hk
  obtain ⟨a, ha, lA, hwkA, y, hy, hyx⟩ := covered_arena hwf hkk
  obtain ⟨lA', hwkA', hbA, hnwA⟩ := arenaOk_parts (hA a ha).2
  rw [hwkA] at hwkA'
  cases hwkA'
  have hbnd : a.base + a.size + 32 ≤ Wd := by
    have := (hA a ha).1
    simpa [arenaBounds, decide_eq_true_eq] using this
  have hstop : (a.base + a.size) % Wd = a.base + a.size := Nat.mod_eq_of_lt (by omega)
  have hyr := walk_mem_range hwkA hnwA (hA a ha).1 y hy
  have hkb : (k, b) ∈ lA := by
    have hyeq : y = (k, b) := by
      have h2 := hyr.2.2
      rw [hyx, hk] at h2
      obtain ⟨y1, y2⟩ := y
      simp only at hyx
      cases h2
      rw [hyx]
    rw [← hyeq]
    exact hy
  have hknw : k + Hs + b.size < Wd := hnwA (k, b) hkb
  have hq : succOf k b = k + Hs + b.size := Nat.mod_eq_of_lt hknw
  obtain ⟨l1, l2, hsplitL, hseg, hwr2⟩ :=
    walkR_decomp _ _ _ (walkList_sound _ _ _ _ hwkA) hkb
  have hnw1 : ∀ x ∈ l1, x.1 + Hs + x.2.size < Wd := fun x hx =>
    hnwA x (by rw [hsplitL]; exact List.mem_append_left _ hx)
  have hsegb := seg_bytes _ _ _ _ hseg hnw1
  have hby : blockBytes l1 + (Hs + b.size + blockBytes l2) = a.size := by
    have hh := hbA
    rw [hsplitL, blockBytes_append, blockBytes_cons2] at hh
    exact hh
  cases hwr2 with
  | cons _ _ _ hklt hklook hwr2' =>
  rw [Nat.mod_eq_of_lt hknw] at hwr2'
  cases hl2 : l2 with
  | nil =>
    exfalso
    rw [hl2] at hwr2'
    cases hwr2' with
    | nil _ hqstop =>
    rw [hstop] at hqstop
    rw [hl2] at hby
    rw [blockBytes_nil] at hby
    have hqend : k + Hs + b.size = a.base + a.size := by omega
    have hqkeys : succOf k b ∈ bmKeys st.block_map := mem_keys_of_lookup hn
    obtain ⟨a2, ha2, hq1, hq2⟩ := key_in_range hwf hqkeys
    rw [hq, hqend] at hq1 hq2
    by_cases hval : a2 = a
    · subst hval
      omega
    · have hsep := pairwiseSep_rel hSep ha ha2 (Ne.symm hval)
      exact sep_disjoint hsep (a.base + a.size) (by omega) (by omega) ⟨hq1, hq2⟩
  | cons x2 l2' =>
    rw [hl2] at hwr2'
    obtain ⟨hx21, hqlt, hqlook, hwr3⟩ := walkR_cons_inv hwr2'
    have hx22 : x2.2 = nb := by
      have hh := hn
      rw [hq] at hh
      rw [hqlook] at hh
      exact Option.some.inj hh
    rw [hx22] at hwr3
    refine ⟨a, ha, lA, l1, l2', hwkA, ?_, hq, hseg, hwr3, hklt⟩
    rw [hsplitL, hl2, hq]
    obtain ⟨x21v, x22v⟩ := x2
    simp only at hx21 hx22
    rw [hx21, hx22]

theorem wf_mergeStep (st : AllocState) (k : Nat) (b nb : BlockHeader)
    (hwf : wf st = true) (hk : bmLookup st.block_map k = some b)
    (hn : bmLookup st.block_map (succOf k b) = some nb) :
    wf ⟨st.default_arena_size, st.arena_list,
      mergeStep st.block_map k b nb⟩ = true := by
  have hHs : Hs = 16 := rfl
  obtain ⟨hA, hSep, hCov, hNd⟩ := wf_parts hwf
  obtain ⟨a, ha, lA, l1, l2, hwkA, hsplitL, hq, hseg, hwr2, hklt⟩ :=
    succ_in_walk st hwf k b nb hk hn
  obtain ⟨lA', hwkA', hbA, hnwA⟩ := arenaOk_parts (hA a ha).2
  rw [hwkA] at hwkA'
  cases hwkA'
  have hbnd : a.base + a.size + 32 ≤ Wd := by
    have := (hA a ha).1
    simpa [arenaBounds, decide_eq_true_eq] using this
  have hstop : (a.base + a.size) % Wd = a.base + a.size := Nat.mod_eq_of_lt (by omega)
  have hkb : (k, b) ∈ lA := by
    rw [hsplitL]
    exact List.mem_append_right _ (List.mem_cons_self _ _)
  have hqb : (succOf k b, nb) ∈ lA := by
    rw [hsplitL]
    exact List.mem_append_right _ (List.mem_cons_of_mem _ (List.mem_cons_self _ _))
  have hknw : k + Hs + b.size < Wd := hnwA (k, b) hkb
  have hqnw : k + Hs + b.size + Hs + nb.size < Wd := by
    have := hnwA (succOf k b, nb) hqb
    rw [hq] at this
    simpa using this
  have hkrange := walk_mem_range hwkA hnwA (hA a ha).1 (k, b) hkb
  have hqrange := walk_mem_range hwkA hnwA (hA a ha).1 (succOf k b, nb) hqb
  have hnw1 : ∀ x ∈ l1, x.1 + Hs + x.2.size < Wd := fun x hx =>
    hnwA x (by rw [hsplitL]; exact List.mem_append_left _ hx)
  have hnw2 : ∀ x ∈ l2, x.1 + Hs + x.2.size < Wd := fun x hx =>
    hnwA x (by
      rw [hsplitL]
      exact List.mem_append_right _ (List.mem_cons_of_mem _ (List.mem_cons_of_mem _ hx)))
  have hby : blockBytes l1 + (Hs + b.size + (Hs + nb.size + blockBytes l2)) = a.size := by
    have hh := hbA
    rw [hsplitL, blockBytes_append, blockBytes_cons2, blockBytes_cons2] at hh
    exact hh
  rw [Nat.mod_eq_of_lt hqnw] at hwr2
  have hl2props := walkR_props _ _ _ hwr2 hnw2
  have hl1props := seg_mem_bounds _ _ _ _ hseg hnw1
  have hmsize : (b.size + Hs + nb.size) % Wd = b.size + Hs + nb.size :=
    Nat.mod_eq_of_lt (by omega)
  have hkq : k ≠ succOf k b := by rw [hq]; omega
  have hlookup_other : ∀ x, x ≠ k → x ≠ succOf k b →
      bmLookup (mergeStep st.block_map k b nb) x = bmLookup st.block_map x := by
    intro x h1 h2
    rw [mergeStep_lookup, if_neg h2, if_neg h1]
  have hlookup_k : bmLookup (mergeStep st.block_map k b nb) k =
      some ⟨b.size + Hs + nb.size, b.is_free, b.is_first, nb.is_last⟩ := by
    rw [mergeStep_lookup, if_neg hkq, if_pos rfl, hk]
    simp only [Option.map_some']
    rw [hmsize]
  have hw2' : WalkR (mergeStep st.block_map k b nb) ((a.base + a.size) % Wd)
      (k + Hs + b.size + Hs + nb.size) l2 := by
    refine walkR_congr _ _ hwr2 (fun x hx => ?_)
    have hp1 := (hl2props x hx).1
    rw [hlookup_other x.1 (by omega) (by rw [hq]; omega)]
    exact (hl2props x hx).2.2
  have hwk' : WalkR (mergeStep st.block_map k b nb) ((a.base + a.size) % Wd) k
      ((k, ⟨b.size + Hs + nb.size, b.is_free, b.is_first, nb.is_last⟩) :: l2) := by
    refine WalkR.cons _ _ _ hklt hlookup_k ?_
    have hstep : (k + Hs +
        (⟨b.size + Hs + nb.size, b.is_free, b.is_first, nb.is_last⟩ : BlockHeader).size)
        % Wd = k + Hs + b.size + Hs + nb.size := by
      show (k + Hs + (b.size + Hs + nb.size)) % Wd = k + Hs + b.size + Hs + nb.size
      have he : k + Hs + (b.size + Hs + nb.size) = k + Hs + b.size + Hs + nb.size := by
        omega
      rw [he]
      exact Nat.mod_eq_of_lt hqnw
    rw [hstep]
    exact hw2'
  have hseg' : Seg (mergeStep st.block_map k b nb) ((a.base + a.size) % Wd)
      a.base k l1 := by
    refine seg_congr _ _ _ hseg (fun x hx => ?_)
    have hp1 := (hl1props x hx).2.1
    rw [hlookup_other x.1 (by omega) (by rw [hq]; omega)]
    exact (hl1props x hx).2.2.2
  refine wf_surgery st _ a
    (l1 ++ (k, ⟨b.size + Hs + nb.size, b.is_free, b.is_first, nb.is_last⟩) :: l2)
    (fun x => x = k ∨ x = succOf k b) hwf ha ?_ ?_ ?_ ?_ ?_ ?_ ?_
  · intro x hx
    exact hlookup_other x (fun hh => hx (Or.inl hh)) (fun hh => hx (Or.inr hh))
  · intro x hx
    rcases hx with rfl | rfl
    · exact ⟨hkrange.1, hkrange.2.1⟩
    · exact ⟨hqrange.1, hqrange.2.1⟩
  · exact walkR_of_seg _ _ _ _ hseg' hwk'
  · rw [blockBytes_append, blockBytes_cons2]
    have hbM : (⟨b.size + Hs + nb.size, b.is_free, b.is_first, nb.is_last⟩ :
        BlockHeader).size = b.size + Hs + nb.size := rfl
    rw [hbM]
    omega
  · intro x hx
    rcases List.mem_append.1 hx with hx1 | hx2
    · exact hnw1 x hx1
    · rcases List.mem_cons.1 hx2 with rfl | hx3
      · show k + Hs +
          (⟨b.size + Hs + nb.size, b.is_free, b.is_first, nb.is_last⟩ :
            BlockHeader).size < Wd
        show k + Hs + (b.size + Hs + nb.size) < Wd
        omega
      · exact hnw2 x hx3
  · intro x hx
    have hxkeys : x ∈ bmKeys st.block_map ∧ x ≠ succOf k b := by
      simp only [mergeStep] at hx
      have := mem_keys_erase.1 hx
      rw [bmKeys_modify] at this
      exact this
    rcases covered_cases hwf ha hwkA hxkeys.1 with ⟨y', hy', hyx'⟩ | hnr
    · rw [hsplitL] at hy'
      rcases List.mem_append.1 hy' with hy1 | hy2
      · exact Or.inl ⟨y', List.mem_append_left _ hy1, hyx'⟩
      · rcases List.mem_cons.1 hy2 with heq | hy3
        · refine Or.inl ⟨(k, ⟨b.size + Hs + nb.size, b.is_free, b.is_first, nb.is_last⟩),
            List.mem_append_right _ (List.mem_cons_self _ _), ?_⟩
          rw [heq] at hyx'
          exact hyx'
        · rcases List.mem_cons.1 hy3 with heq | hy4
          · exfalso
            rw [heq] at hyx'
            simp only at hyx'
            exact hxkeys.2 hyx'.symm
          · exact Or.inl ⟨y', List.mem_append_right _ (List.mem_cons_of_mem _ hy4), hyx'⟩
    · exact Or.inr ⟨hxkeys.1, hnr⟩
  · simp only [mergeStep]
    exact nodup_keys_erase _ (nodup_keys_modify _ _ hNd)

theorem wf_uniteInner (st : AllocState) (fuel k : Nat) (hwf : wf st = true) :
    wf ⟨st.default_arena_size, st.arena_list,
      uniteInner fuel st.block_map k⟩ = true := by
  induction fuel generalizing st with
  | zero => exact hwf
  | succ f ih =>
    rcases uniteInner_step_cases f st.block_map k with ⟨he, _⟩ | ⟨b, nb, hl, hf, hn, hnf, he⟩
    · rw [he]
      exact hwf
    · rw [he]
      exact ih ⟨st.default_arena_size, st.arena_list, mergeStep st.block_map k b nb⟩
        (wf_mergeStep st k b nb hwf hl hn)

theorem wf_block_unite (st : AllocState) (order : List Nat) (hwf : wf st = true) :
    wf ⟨st.default_arena_size, st.arena_list,
      block_unite st.block_map order⟩ = true := by
  induction order generalizing st with
  | nil => exact hwf
  | cons k rest ih =>
    rw [block_unite_cons]
    exact ih ⟨st.default_arena_size, st.arena_list,
      uniteInner (st.block_map.length + 1) st.block_map k⟩
      (wf_uniteInner st _ k hwf)

theorem wf_mem_free_ord (st : AllocState) (ptr : Option Nat) (order : List Nat)
    (hwf : wf st = true) : wf (mem_free_ord st ptr order) = true := by
  cases ptr with
  | none => exact hwf
  | some p =>
    cases hl : bmLookup st.block_map (subw p Hs) with
    | none => simp only [mem_free_ord, hl]; exact hwf
    | some b =>
      simp only [mem_free_ord, hl]
      have hwf1 := wf_modify st (subw p Hs)
        (fun h => ⟨h.size, true, h.is_first, h.is_last⟩) (fun c => rfl) hwf
      exact wf_block_unite ⟨st.default_arena_size, st.arena_list,
        bmModify st.block_map (subw p Hs)
          (fun h => ⟨h.size, true, h.is_first, h.is_last⟩)⟩ order hwf1

theorem wf_mem_free (st : AllocState) (ptr : Option Nat) (hwf : wf st = true) :
    wf (mem_free st ptr) = true :=
  wf_mem_free_ord st ptr _ hwf

theorem wf_arena_create (st : AllocState) (ms base : Nat) (hwf : wf st = true)
    (hfit : arenaFits st base (align (max ms st.default_arena_size)) = true) :
    wf ⟨st.default_arena_size,
      Arena.mk (align (max ms st.default_arena_size)) base :: st.arena_list,
      bmInsert st.block_map base
        ⟨subw (align (max ms st.default_arena_size)) Hs, true, true, true⟩⟩ = true := by
  have hHs : Hs = 16 := rfl
  obtain ⟨hA, hSep, hCov, hNd⟩ := wf_parts hwf
  simp only [arenaFits, Bool.and_eq_true, decide_eq_true_eq, List.all_eq_true] at hfit
  obtain ⟨⟨hsz16, hszW⟩, hsepAll⟩ := hfit
  have haW : align (max ms st.default_arena_size) < Wd := align_lt_Wd _
  have hsub : subw (align (max ms st.default_arena_size)) Hs =
      align (max ms st.default_arena_size) - Hs := subw_small (by omega) haW
  have hbfresh : base ∉ bmKeys st.block_map := by
    intro hmem
    obtain ⟨a2, ha2, hr1, hr2⟩ := key_in_range hwf hmem
    have := hsepAll a2 ha2
    simp only [sepArena, Bool.or_eq_true, decide_eq_true_eq] at this
    rcases this with h | h
    · replace h : base + align (max ms st.default_arena_size) < a2.base := h
      omega
    · replace h : a2.base + a2.size < base := h
      omega
  have hwalkNew : WalkR (bmInsert st.block_map base
      ⟨subw (align (max ms st.default_arena_size)) Hs, true, true, true⟩)
      ((base + align (max ms st.default_arena_size)) % Wd) base
      [(base, ⟨subw (align (max ms st.default_arena_size)) Hs, true, true, true⟩)] := by
    have hstop : (base + align (max ms st.default_arena_size)) % Wd =
        base + align (max ms st.default_arena_size) := Nat.mod_eq_of_lt (by omega)
    refine WalkR.cons _ _ _ ?_ (bmLookup_insert_self _ _ _) ?_
    · rw [hstop]
      omega
    · have hstep : (base + Hs +
          (⟨subw (align (max ms st.default_arena_size)) Hs, true, true, true⟩ :
            BlockHeader).size) % Wd =
          base + align (max ms st.default_arena_size) := by
        show (base + Hs + subw (align (max ms st.default_arena_size)) Hs) % Wd = _
        rw [hsub]
        have he : base + Hs + (align (max ms st.default_arena_size) - Hs) =
            base + align (max ms st.default_arena_size) := by omega
        rw [he]
        exact Nat.mod_eq_of_lt (by omega)
      rw [hstep]
      refine WalkR.nil _ ?_
      rw [hstop]
      omega
  have hother : ∀ a2 ∈ st.arena_list,
      ∃ l2, arenaWalk st.block_map a2 = some l2 ∧
        arenaWalk (bmInsert st.block_map base
          ⟨subw (align (max ms st.default_arena_size)) Hs, true, true, true⟩) a2 =
          some l2 ∧ blockBytes l2 = a2.size ∧ ∀ x ∈ l2, x.1 + Hs + x.2.size < Wd := by
    intro a2 ha2
    obtain ⟨l2, hwk2, hb2, hnw2⟩ := arenaOk_parts (hA a2 ha2).2
    have hlook : ∀ x ∈ l2, bmLookup (bmInsert st.block_map base
        ⟨subw (align (max ms st.default_arena_size)) Hs, true, true, true⟩) x.1 =
        some x.2 := by
      intro x hx
      have hrange := walk_mem_range hwk2 hnw2 (hA a2 ha2).1 x hx
      have hxb : x.1 ≠ base := by
        intro hh
        have := hsepAll a2 ha2
        simp only [sepArena, Bool.or_eq_true, decide_eq_true_eq] at this
        rcases this with h | h
        · replace h : base + align (max ms st.default_arena_size) < a2.base := h
          omega
        · replace h : a2.base + a2.size < base := h
          omega
      rw [bmLookup_insert_ne _ _ hxb]
      exact hrange.2.2
    have hwr2' := walkR_congr _ _ (walkList_sound _ _ _ _ hwk2) hlook
    have hlen2 : l2.length ≤ a2.size + 1 := by
      have h1 := length_le_blockBytes l2
      omega
    exact ⟨l2, hwk2, walkList_complete _ _ _ hwr2' _ hlen2, hb2, hnw2⟩
  refine wf_of_parts ?_ ?_ ?_ ?_
  · intro a2 ha2
    rcases List.mem_cons.1 ha2 with rfl | ha2
    · constructor
      · simp only [arenaBounds, decide_eq_true_eq]
        exact hszW
      · refine arenaOk_of_parts
          (walkList_complete _ _ _ hwalkNew _ (Nat.succ_le_succ (Nat.zero_le _))) ?_ ?_
        · rw [blockBytes_cons2, blockBytes_nil, hsub]
          show Hs + (align (max ms st.default_arena_size) - Hs) + 0 =
            (Arena.mk (align (max ms st.default_arena_size)) base).size
          show Hs + (align (max ms st.default_arena_size) - Hs) + 0 =
            align (max ms st.default_arena_size)
          omega
        · intro x hx
          rcases List.mem_cons.1 hx with rfl | hx
          · show base + Hs + (⟨subw (align (max ms st.default_arena_size)) Hs,
              true, true, true⟩ : BlockHeader).size < Wd
            show base + Hs + subw (align (max ms st.default_arena_size)) Hs < Wd
            rw [hsub]
            omega
          · simp at hx
    · obtain ⟨l2, _, hwk2', hb2, hnw2⟩ := hother a2 ha2
      exact ⟨(hA a2 ha2).1, arenaOk_of_parts hwk2' hb2 hnw2⟩
  · simp only [pairwiseSep, Bool.and_eq_true, List.all_eq_true]
    refine ⟨fun a2 ha2 => ?_, hSep⟩
    exact hsepAll a2 ha2
  · simp only [coveredKeys, List.all_eq_true]
    intro e he
    simp only [List.any_eq_true]
    have hkeys : bmKeys (bmInsert st.block_map base
        ⟨subw (align (max ms st.default_arena_size)) Hs, true, true, true⟩) =
        base :: bmKeys st.block_map := by
      rw [bmInsert, bmErase_of_not_mem hbfresh]
      rfl
    have hx : e.1 ∈ base :: bmKeys st.block_map := by
      rw [← hkeys]
      exact List.mem_map_of_mem (fun z => z.1) he
    rcases List.mem_cons.1 hx with hb | hx
    · refine ⟨Arena.mk (align (max ms st.default_arena_size)) base,
        List.mem_cons_self _ _, ?_⟩
      rw [inWalk]
      have hwk' : arenaWalk (bmInsert st.block_map base
          ⟨subw (align (max ms st.default_arena_size)) Hs, true, true, true⟩)
          (Arena.mk (align (max ms st.default_arena_size)) base) =
          some [(base, ⟨subw (align (max ms st.default_arena_size)) Hs,
            true, true, true⟩)] :=
        walkList_complete _ _ _ hwalkNew _ (Nat.succ_le_succ (Nat.zero_le _))
      rw [hwk']
      simp [hb]
    · obtain ⟨a3, ha3, l3, hwk3, y, hy, hyx⟩ := covered_arena hwf hx
      obtain ⟨l2, hwk2, hwk2', _, _⟩ := hother a3 ha3
      rw [hwk3] at hwk2
      cases hwk2
      refine ⟨a3, List.mem_cons_of_mem _ ha3, ?_⟩
      rw [inWalk, hwk2']
      simp only [List.any_eq_true, beq_iff_eq]
      exact ⟨y, hy, hyx⟩
  · have hkeys : bmKeys (bmInsert st.block_map base
        ⟨subw (align (max ms st.default_arena_size)) Hs, true, true, true⟩) =
        base :: bmKeys st.block_map := by
      rw [bmInsert, bmErase_of_not_mem hbfresh]
      rfl
    rw [hkeys]
    exact List.Nodup.cons (by simpa using hbfresh) hNd

theorem wf_block_alloc (st : AllocState) (a : Arena) (sz0 : Nat) (p : Nat)
    (m' : BlockMap) (hwf : wf st = true) (ha : a ∈ st.arena_list)
    (hba : block_alloc st.block_map a sz0 = some (p, m')) :
    wf ⟨st.default_arena_size, st.arena_list, m'⟩ = true := by
  obtain ⟨hA, hSep, hCov, hNd⟩ := wf_parts hwf
  obtain ⟨l, hwk, hb, hnw⟩ := arenaOk_parts (hA a ha).2
  have hw := walkList_sound _ _ _ _ hwk
  have hlen : l.length ≤ a.size + 1 := by
    have h1 := length_le_blockBytes l
    omega
  rw [block_alloc] at hba
  rw [blockAllocGo_find st.block_map (align sz0) _ hw (a.size + 1) hlen] at hba
  cases hfind : l.find? (fun x => x.2.is_free && decide (align sz0 ≤ x.2.size)) with
  | none => rw [hfind] at hba; exact Option.noConfusion hba
  | some x =>
    rw [hfind] at hba
    have hx : x ∈ l := List.mem_of_find?_eq_some hfind
    have hpred := List.find?_some hfind
    simp only [Bool.and_eq_true, decide_eq_true_eq] at hpred
    have hlook : bmLookup st.block_map x.1 = some x.2 :=
      (walk_mem_range hwk hnw (hA a ha).1 x hx).2.2
    have hle : align (align sz0) ≤ x.2.size := by
      rw [align_align]
      exact hpred.2
    have hwfsplit := wf_split st x.1 (align sz0) x.2 hwf hlook hle
    have hwfbusy := wf_modify ⟨st.default_arena_size, st.arena_list,
        block_split st.block_map x.1 (align sz0)⟩ x.1
      (fun h => ⟨h.size, false, h.is_first, h.is_last⟩) (fun c => rfl) hwfsplit
    cases hba
    exact hwfbusy

theorem wf_tryArenas (st : AllocState) (sz0 : Nat) (p : Nat) (m' : BlockMap) :
    ∀ (arenas : List Arena), (∀ a ∈ arenas, a ∈ st.arena_list) →
    wf st = true → tryArenas st.block_map sz0 arenas = some (p, m') →
    wf ⟨st.default_arena_size, st.arena_list, m'⟩ = true := by
  intro arenas
  induction arenas with
  | nil => intro _ _ h; exact Option.noConfusion h
  | cons a rest ih =>
    intro hsub hwf h
    rw [tryArenas] at h
    cases hba : block_alloc st.block_map a sz0 with
    | some r =>
      obtain ⟨p', m''⟩ := r
      rw [hba] at h
      rw [Option.some.injEq, Prod.mk.injEq] at h
      obtain ⟨hp, hm⟩ := h
      subst hp
      subst hm
      exact wf_block_alloc st a sz0 _ _ hwf (hsub a (List.mem_cons_self _ _)) hba
    | none =>
      rw [hba] at h
      exact ih (fun a' ha' => hsub a' (List.mem_cons_of_mem _ ha')) hwf h

theorem osOk_fits {st : AllocState} {size base : Nat}
    (hos : osOk st size (some base) = true) :
    arenaFits st base (align (max ((align size + Hs) % Wd) st.default_arena_size)) =
      true := hos

theorem wf_mem_alloc (st : AllocState) (size : Nat) (osB : Option Nat)
    (hwf : wf st = true) (hos : osOk st size osB = true) :
    wf (mem_alloc st size osB).2 = true := by
  by_cases hz : size = 0
  · simp [mem_alloc, hz]
    exact hwf
  · cases hTry : tryArenas st.block_map (align size) st.arena_list with
    | some r =>
      obtain ⟨p, m'⟩ := r
      rw [mem_alloc_hit st size osB hz hTry]
      exact wf_tryArenas st (align size) p m' st.arena_list (fun a ha => ha) hwf hTry
    | none =>
      rw [mem_alloc_miss st size osB hz hTry]
      cases osB with
      | none => exact hwf
      | some base =>
        simp only [arena_create_some]
        have hwf1 := wf_arena_create st ((align size + Hs) % Wd) base hwf (osOk_fits hos)
        cases hba : block_alloc
            (bmInsert st.block_map base
              ⟨subw (align (max ((align size + Hs) % Wd) st.default_arena_size)) Hs,
                true, true, true⟩)
            ⟨align (max ((align size + Hs) % Wd) st.default_arena_size), base⟩
            (align size) with
        | some r =>
          obtain ⟨p, m'⟩ := r
          have := wf_block_alloc
            ⟨st.default_arena_size,
              Arena.mk (align (max ((align size + Hs) % Wd) st.default_arena_size))
                base :: st.arena_list,
              bmInsert st.block_map base
                ⟨subw (align (max ((align size + Hs) % Wd) st.default_arena_size)) Hs,
                  true, true, true⟩⟩
            ⟨align (max ((align size + Hs) % Wd) st.default_arena_size), base⟩
            (align size) p m' hwf1 (List.mem_cons_self _ _) hba
          exact this
        | none => exact hwf1

theorem osOk_align (st : AllocState) (size : Nat) (osB : Option Nat) :
    osOk st (align size) osB = osOk st size osB := by
  cases osB with
  | none => rfl
  | some base =>
    simp only [osOk, newArenaSize, align_align]

theorem wf_mem_realloc (st : AllocState) (ptr : Option Nat) (size : Nat)
    (osB : Option Nat) (hwf : wf st = true) (hos : osOk st size osB = true) :
    wf (mem_realloc st ptr size osB).2 = true := by
  cases ptr with
  | none => exact wf_mem_alloc st size osB hwf hos
  | some p =>
    cases hl : bmLookup st.block_map (subw p Hs) with
    | none => simp only [mem_realloc, hl]; exact hwf
    | some b =>
      simp only [mem_realloc, hl]
      by_cases hle : align size ≤ b.size
      · rw [if_pos hle]
        have := wf_split st (subw p Hs) (align size) b hwf hl
          (by rw [align_align]; exact hle)
        exact this
      · rw [if_neg hle]
        have hos' : osOk st (align size) osB = true := by
          rw [osOk_align]
          exact hos
        have hwf1 := wf_mem_alloc st (align size) osB hwf hos'
        cases hma : mem_alloc st (align size) osB with
        | mk r st1 =>
          rw [hma] at hwf1
          cases r with
          | none => exact hwf1
          | some np => exact wf_mem_free st1 (some p) hwf1

/-! ## Claim C2 — the per-arena byte-sum invariant -/

theorem wf_sums {st : AllocState} (hwf : wf st = true) :
    ∀ a ∈ st.arena_list, arenaSumOk st.block_map a := by
  intro a ha
  obtain ⟨hA, _, _, _⟩ := wf_parts hwf
  obtain ⟨l, hwk, hb, _⟩ := arenaOk_parts (hA a ha).2
  exact ⟨l, hwk, hb⟩

/-- C2's counterexample: a reachable state (public operations only, with the
OS provider returning an arena starting exactly at the end address of the
first one) in which, after `mem_free` completes, walking the first arena
`[4096, 8192)` from its base yields a single block accounting for 8192 bytes —
not the arena's 4096 — because the final coalescing pass merged across the
arena boundary. -/
theorem C2_sum_invariant_cx :
    (⟨4096, 4096⟩ : Arena) ∈ cxMerged.arena_list ∧
    arenaWalk cxMerged.block_map ⟨4096, 4096⟩ =
      some [(4096, ⟨8176, true, true, true⟩)] ∧
    blockBytes [(4096, (⟨8176, true, true, true⟩ : BlockHeader))] = 8192 ∧
    (⟨4096, 4096⟩ : Arena).size = 4096 := by decide

/-- C2 (amended): provided the state is well-formed — in particular, arenas
strictly separated — and the OS provider only returns acceptable regions
(`osOk`), every public operation preserves well-formedness, and hence after
each operation every arena's walk sums to exactly its size.  The `mem_free`
conjunct is also stated for an arbitrary coalescing traversal order. -/
theorem C2_sum_invariant (st : AllocState) (hwf : wf st = true) :
    (∀ size osB, osOk st size osB = true →
      ∀ a ∈ (mem_alloc st size osB).2.arena_list,
        arenaSumOk (mem_alloc st size osB).2.block_map a) ∧
    (∀ ptr, ∀ a ∈ (mem_free st ptr).arena_list,
        arenaSumOk (mem_free st ptr).block_map a) ∧
    (∀ ptr order, ∀ a ∈ (mem_free_ord st ptr order).arena_list,
        arenaSumOk (mem_free_ord st ptr order).block_map a) ∧
    (∀ ptr size osB, osOk st size osB = true →
      ∀ a ∈ (mem_realloc st ptr size osB).2.arena_list,
        arenaSumOk (mem_realloc st ptr size osB).2.block_map a) :=
  ⟨fun size osB hos => wf_sums (wf_mem_alloc st size osB hwf hos),
    fun ptr => wf_sums (wf_mem_free st ptr hwf),
    fun ptr order => wf_sums (wf_mem_free_ord st ptr order hwf),
    fun ptr size osB hos => wf_sums (wf_mem_realloc st ptr size osB hwf hos)⟩

/-- Witness for C2 at the concrete well-formed state after
`configure(4096); allocate(2000)`. -/
theorem C2_sum_invariant_witness :
    (∀ size osB, osOk c6state size osB = true →
      ∀ a ∈ (mem_alloc c6state size osB).2.arena_list,
        arenaSumOk (mem_alloc c6state size osB).2.block_map a) ∧
    (∀ ptr, ∀ a ∈ (mem_free c6state ptr).arena_list,
        arenaSumOk (mem_free c6state ptr).block_map a) ∧
    (∀ ptr order, ∀ a ∈ (mem_free_ord c6state ptr order).arena_list,
        arenaSumOk (mem_free_ord c6state ptr order).block_map a) ∧
    (∀ ptr size osB, osOk c6state size osB = true →
      ∀ a ∈ (mem_realloc c6state ptr size osB).2.arena_list,
        arenaSumOk (mem_realloc c6state ptr size osB).2.block_map a) :=
  C2_sum_invariant c6state (by decide)

/-! ## Claim C3 — merges and arena boundaries -/

/-- C3's counterexample: with an OS provider that returns a second arena
starting exactly at the end address of the first (`[4096,8192)` and
`[8192,12288)` — a behavior the claim explicitly includes), the coalescing
pass run by the final `mem_free` merges the free block at 4096 with the
tracked block at its successor address 8192, although no arena contains both
addresses: the merge crosses the arena boundary (block 8192 is absorbed and
erased, block 4096 grows to 8176 bytes, spanning both arenas). -/
theorem C3_cross_arena_cx :
    cxAdj.arena_list = [⟨4096, 8192⟩, ⟨4096, 4096⟩] ∧
    bmLookup (mem_free cxAdj (some 8208)).block_map 4096 =
      some ⟨4080, false, true, true⟩ ∧
    bmLookup (mem_free cxAdj (some 8208)).block_map 8192 =
      some ⟨4080, true, true, true⟩ ∧
    succOf 4096 ⟨4080, true, true, true⟩ = 8192 ∧
    bmLookup cxMerged.block_map 4096 = some ⟨8176, true, true, true⟩ ∧
    bmLookup cxMerged.block_map 8192 = none ∧
    (cxMerged.arena_list.all (fun a =>
      !(decide (a.base ≤ 4096 ∧ 4096 < a.base + a.size) &&
        decide (a.base ≤ 8192 ∧ 8192 < a.base + a.size)))) = true := by decide

/-- C3 (amended): in a well-formed state — in particular, with every arena
strictly separated from the others, which rules out the provider behavior of
the counterexample — every merge candidate of the coalescing pass stays
inside one arena: whenever a tracked block's successor address is itself
tracked, one arena's range contains both the block and its successor. -/
theorem C3_merge_same_arena (st : AllocState) (hwf : wf st = true) (k : Nat)
    (b nb : BlockHeader) (hk : bmLookup st.block_map k = some b)
    (hn : bmLookup st.block_map (succOf k b) = some nb) :
    ∃ a ∈ st.arena_list, (a.base ≤ k ∧ k < a.base + a.size) ∧
      (a.base ≤ succOf k b ∧ succOf k b < a.base + a.size) := by
  obtain ⟨a, ha, lA, l1, l2, hwkA, hsplitL, hq, _, _, _⟩ :=
    succ_in_walk st hwf k b nb hk hn
  obtain ⟨hA, _, _, _⟩ := wf_parts hwf
  obtain ⟨lA', hwkA', hbA, hnwA⟩ := arenaOk_parts (hA a ha).2
  rw [hwkA] at hwkA'
  cases hwkA'
  have h1 := walk_mem_range hwkA hnwA (hA a ha).1 (k, b)
    (by rw [hsplitL]; exact List.mem_append_right _ (List.mem_cons_self _ _))
  have h2 := walk_mem_range hwkA hnwA (hA a ha).1 (succOf k b, nb)
    (by
      rw [hsplitL]
      exact List.mem_append_right _ (List.mem_cons_of_mem _ (List.mem_cons_self _ _)))
  exact ⟨a, ha, ⟨h1.1, h1.2.1⟩, ⟨h2.1, h2.2.1⟩⟩

/-- Witness for C3 (amended) at the concrete state of the first-fit
scenario: the busy block at 4096 and its tracked successor 4312 lie in the
one arena `[4096, 8192)`. -/
theorem C3_merge_same_arena_witness :
    ∃ a ∈ c5state.arena_list, (a.base ≤ 4096 ∧ 4096 < a.base + a.size) ∧
      (a.base ≤ succOf 4096 ⟨200, false, true, false⟩ ∧
        succOf 4096 ⟨200, false, true, false⟩ < a.base + a.size) :=
  C3_merge_same_arena c5state (by decide) 4096 ⟨200, false, true, false⟩
    ⟨200, true, false, false⟩ (by decide) (by decide)

end SPlab
